import Mathlib

/-!
# Grbl_Esp32 spindle control: a shallow embedding of `Spindles/Spindle.cpp`

The definitions below follow `src/Grbl_Esp32/src/Spindles/Spindle.cpp` and, for
the PWM channel allocator and the precision computation,
`src/Grbl_Esp32/src/System.cpp`.

Conventions.
* `uint32_t` values (`SpindleSpeed`, `up`, `down`, `_current_speed`, the ramp
  times, table offsets and scales) are natural numbers; every operation that
  can leave the 32-bit range is reduced modulo `2 ^ 32` explicitly.
* An integer division by zero has no defined result in C++; the embedding
  returns `none` at that point.
* Floating-point arithmetic (`float`, `double`) in `setupSpeeds` and
  `shelfSpeeds` follows IEEE 754: every operation is the exact operation on
  rationals followed by rounding to the nearest value of the format (binary32
  for `float`, binary64 for `double`), ties to even.  A conversion of a
  floating-point value to `uint32_t` truncates; it is undefined in C++ outside
  `(-1, 2 ^ 32)`, and the embedding returns `none` there.
* `Spindle.h` is not part of the sources at hand.  The value returned by
  `maxSpeed()` is carried as a field of the embedded object, and the members
  `_spinup_ms`, `_spindown_ms`, `_current_speed` are taken to be `uint32_t`.
-/

namespace Spindles

/-- The modulus of 32-bit unsigned arithmetic. -/
def U32 : Nat := 2 ^ 32

/-- Unsigned 32-bit subtraction `a - b`. -/
def sub32 (a b : Nat) : Nat := (a % U32 + U32 - b % U32) % U32

/-- Unsigned 32-bit multiplication `a * b`. -/
def mul32 (a b : Nat) : Nat := (a * b) % U32

/-- Unsigned 32-bit addition `a + b`. -/
def add32 (a b : Nat) : Nat := (a + b) % U32

/-- Unsigned division `a / b`; undefined (`none`) when the divisor is zero. -/
def udiv (a b : Nat) : Option Nat := if b = 0 then none else some (a / b)

/-- The enumeration `SpindleState`. -/
inductive SpindleState where
  | Unknown
  | Disable
  | Cw
  | Ccw
  deriving DecidableEq, Repr

/-- The members of a `Spindle` object that `spinDelay` reads and writes,
together with the value `maxSpeed()` returns for it. -/
structure Spindle where
  _current_state : SpindleState
  _current_speed : Nat
  _spinup_ms : Nat
  _spindown_ms : Nat
  maxSpeed : Nat
  deriving DecidableEq, Repr

/-- The two local variables `up` and `down` of `spinDelay`. -/
structure Ramp where
  up : Nat
  down : Nat
  deriving DecidableEq, Repr

/-- The inner `switch (_current_state)` under `case SpindleState::Disable`
(lines 158-168). -/
def caseDisable (sp : Spindle) (r : Ramp) : Ramp :=
  match sp._current_state with
  | .Unknown => { r with down := sp.maxSpeed }
  | .Disable => r
  | .Cw => { r with down := sp._current_speed }
  | .Ccw => { r with down := sp._current_speed }

/-- The inner `switch (_current_state)` under `case SpindleState::Cw`
(lines 170-188).  The `Unknown` case falls through into the `Disable` case. -/
def caseCw (sp : Spindle) (speed : Nat) (r : Ramp) : Ramp :=
  match sp._current_state with
  | .Unknown => { up := speed, down := sp.maxSpeed }
  | .Disable => { r with up := speed }
  | .Cw =>
    if speed > sp._current_speed then { r with up := sub32 speed sp._current_speed }
    else { r with down := sub32 speed sp._current_speed }
  | .Ccw => { up := speed, down := sp._current_speed }

/-- The inner `switch (_current_state)` under `case SpindleState::Ccw`
(lines 190-208).  The `Unknown` case falls through into the `Disable` case. -/
def caseCcw (sp : Spindle) (speed : Nat) (r : Ramp) : Ramp :=
  match sp._current_state with
  | .Unknown => { up := speed, down := sp.maxSpeed }
  | .Disable => { r with up := speed }
  | .Cw => { up := speed, down := sp._current_speed }
  | .Ccw =>
    if speed > sp._current_speed then { r with up := sub32 speed sp._current_speed }
    else { r with down := sub32 speed sp._current_speed }

/-- The outer `switch (state)` of `spinDelay` (lines 151-209), giving the final
values of `up` and `down`.  Only `case Unknown` ends in `break`: the body of
`case Disable` runs on into `case Cw`, and that of `case Cw` into `case Ccw`. -/
def spinRamp (sp : Spindle) (state : SpindleState) (speed : Nat) : Ramp :=
  match state with
  | .Unknown => { up := 0, down := 0 }
  | .Disable => caseCcw sp speed (caseCw sp speed (caseDisable sp { up := 0, down := 0 }))
  | .Cw => caseCcw sp speed (caseCw sp speed { up := 0, down := 0 })
  | .Ccw => caseCcw sp speed { up := 0, down := 0 }

/-- One guarded call `if (amount) { delay(ms * amount / maxSpeed()); }`: the list
of `delay` arguments it produces, or `none` when the division is by zero. -/
def rampDelay (ms amount maxSpeed : Nat) : Option (List Nat) :=
  if amount = 0 then some []
  else (udiv (mul32 ms amount) maxSpeed).map (fun t => [t])

/-- The function `Spindle::spinDelay(state, speed)` (lines 150-218).  The result
is the list of arguments passed to `delay`, in call order, and the object after
the two final assignments; `none` when a division by zero is evaluated. -/
def spinDelay (sp : Spindle) (state : SpindleState) (speed : Nat) :
    Option (List Nat × Spindle) :=
  let r := spinRamp sp state speed
  match rampDelay sp._spindown_ms r.down sp.maxSpeed with
  | none => none
  | some d =>
    match rampDelay sp._spinup_ms r.up sp.maxSpeed with
    | none => none
    | some u => some (d ++ u, { sp with _current_state := state, _current_speed := speed })

/-! ## Floating point

`setupSpeeds` and `shelfSpeeds` compute in `float` (IEEE 754 binary32) and
`double` (binary64).  A finite floating-point value is modelled as the rational
number it denotes; `none` stands for a value that is not finite (an infinity or
a NaN).  The sign of a zero is not tracked: it only shows in a division by
zero, whose result is not finite with either sign.  Every operation is the
exact operation followed by rounding to the nearest value of the format, ties
to the even one, the default rounding mode; an operation on a value that is not
finite gives a value that is not finite (the program never divides by an
infinity: its divisors are `100`, a difference of two converted `uint32_t`
values, and a converted `uint32_t` value). -/

/-- Rounding of a rational to the nearest integer, ties to the even one. -/
def roundNearestEven (y : ℚ) : Int :=
  if y - (Int.floor y : ℚ) < 1 / 2 then Int.floor y
  else if 1 / 2 < y - (Int.floor y : ℚ) then Int.floor y + 1
  else if Int.floor y % 2 = 0 then Int.floor y
  else Int.floor y + 1

/-- A binary floating-point format: the number of significand bits and the
exponents of the smallest and of the largest normal binade. -/
structure FloatFormat where
  prec : Nat
  emin : Int
  emax : Int

/-- The type `float`. -/
def binary32 : FloatFormat := { prec := 24, emin := -126, emax := 127 }

/-- The type `double`. -/
def binary64 : FloatFormat := { prec := 53, emin := -1022, emax := 1023 }

/-- The binary logarithm of a natural number, rounded down (0 for 0 and 1): the
number of halvings that lead below 2.  The first argument bounds the number of
steps; it suffices when it is at least the number itself. -/
def log2Steps : Nat → Nat → Nat
  | 0, _ => 0
  | fuel + 1, n => if n < 2 then 0 else log2Steps fuel (n / 2) + 1

/-- The binade of a non-zero rational: the exponent `e` with
`2 ^ e ≤ |q| < 2 ^ (e + 1)`, found from the binary logarithms of numerator and
denominator. -/
def log2Floor (q : ℚ) : Int :=
  if (2 : ℚ) ^ ((log2Steps q.num.natAbs q.num.natAbs : Int) - (log2Steps q.den q.den : Int)) ≤ |q|
  then (log2Steps q.num.natAbs q.num.natAbs : Int) - (log2Steps q.den q.den : Int)
  else (log2Steps q.num.natAbs q.num.natAbs : Int) - (log2Steps q.den q.den : Int) - 1

/-- The exponent of the spacing of the format's values around `q`: values in the
binade `[2 ^ e, 2 ^ (e + 1))` are spaced `2 ^ (e - (prec - 1))` apart, and below
the smallest normal binade the spacing is that of the subnormal values. -/
def FloatFormat.quantum (F : FloatFormat) (q : ℚ) : Int :=
  max (log2Floor q) F.emin - ((F.prec : Int) - 1)

/-- Rounding of an exact result to the format; a result whose magnitude reaches
`2 ^ (emax + 1)` overflows to an infinity (`none`). -/
def FloatFormat.round (F : FloatFormat) (q : ℚ) : Option ℚ :=
  let r : ℚ := (roundNearestEven (q / (2 : ℚ) ^ F.quantum q) : ℚ) * (2 : ℚ) ^ F.quantum q
  if |r| < (2 : ℚ) ^ (F.emax + 1) then some r else none

/-- Floating-point subtraction `a - b`. -/
def fsub (F : FloatFormat) (a b : Option ℚ) : Option ℚ :=
  match a, b with
  | some x, some y => F.round (x - y)
  | _, _ => none

/-- Floating-point multiplication `a * b`. -/
def fmul (F : FloatFormat) (a b : Option ℚ) : Option ℚ :=
  match a, b with
  | some x, some y => F.round (x * y)
  | _, _ => none

/-- Floating-point division `a / b`; a division by zero gives an infinity or a
NaN. -/
def fdiv (F : FloatFormat) (a b : Option ℚ) : Option ℚ :=
  match a, b with
  | some x, some y => if y = 0 then none else F.round (x / y)
  | _, _ => none

/-- Conversion of a `uint32_t` to the format. -/
def ofUInt32 (F : FloatFormat) (n : Nat) : Option ℚ := F.round (n : ℚ)

/-- Conversion of a floating-point value to `uint32_t`: truncation toward zero.
The conversion is undefined (`none`) unless the truncated value fits, that is
unless the value is finite and lies in `(-1, 2 ^ 32)`. -/
def toUInt32 (v : Option ℚ) : Option Nat :=
  match v with
  | some q => if -1 < q ∧ q < (U32 : ℚ) then some (Int.toNat (Int.floor q)) else none
  | none => none

/-- A format at least as fine and as wide as `binary32`. -/
def FloatFormat.Fine (F : FloatFormat) : Prop :=
  24 ≤ F.prec ∧ F.emin - (F.prec : Int) ≤ -150 ∧ 127 ≤ F.emax

/-- Bound on the relative rounding error of a fine format. -/
def kappa : ℚ := 1 + 1 / 2 ^ 24

/-- Bound on the absolute rounding error of a fine format among the subnormal
values. -/
def eta : ℚ := 1 / 2 ^ 150

/-! ## Calibration table: `setupSpeeds`, `shelfSpeeds`, `mapSpeed` -/

/-- The record `Configuration::speedEntry`: a configured `(speed, percent)` point
with the derived segment data `offset` and `scale`.  `percent` is a finite
`float`. -/
structure speedEntry where
  speed : Nat
  percent : ℚ
  offset : Nat
  scale : Nat
  deriving DecidableEq, Inhabited

/-- Body of the loop of `setupSpeeds` (lines 82-92) for the entry `a` at index
`i` and its successor `b` at index `i + 1`.  The offset is computed in `double`
(`percent / 100.0 * max_dev_speed`), everything else in `float`; the result is
`none` when a conversion to `uint32_t` is undefined. -/
def setupSegment (max_dev_speed : Nat) (a b : speedEntry) : Option speedEntry :=
  match toUInt32 (fmul binary64 (fdiv binary64 (some a.percent) (some 100))
      (ofUInt32 binary64 max_dev_speed)) with
  | none => none
  | some offset =>
    let deltaPercent := fdiv binary32 (fsub binary32 (some b.percent) (some a.percent)) (some 100)
    let deltaRPM := fsub binary32 (ofUInt32 binary32 b.speed) (ofUInt32 binary32 a.speed)
    let scale := if deltaRPM = some 0 then some 0 else fdiv binary32 deltaPercent deltaRPM
    let scale := fmul binary32 scale (ofUInt32 binary32 max_dev_speed)
    match toUInt32 (fmul binary32 scale (some 65536)) with
    | none => none
    | some scaler => some { a with offset := offset, scale := scaler }

/-- The assignments after the loop of `setupSpeeds` (lines 96-99) for the final
entry: the offset is computed in `float`
(`percent / 100.0f * float(max_dev_speed)`). -/
def setupLast (max_dev_speed : Nat) (a : speedEntry) : Option speedEntry :=
  match toUInt32 (fmul binary32 (fdiv binary32 (some a.percent) (some 100))
      (ofUInt32 binary32 max_dev_speed)) with
  | none => none
  | some offset => some { a with offset := offset, scale := 0 }

/-- The loop of `setupSpeeds` followed by the treatment of the final entry: each
entry but the last is rewritten from itself and its successor (only `offset`
and `scale` are written, `speed` and `percent` are read). -/
def setupLoop (max_dev_speed : Nat) : List speedEntry → Option (List speedEntry)
  | [] => some []
  | [a] => (setupLast max_dev_speed a).map (fun s => [s])
  | a :: b :: rest =>
    match setupSegment max_dev_speed a b with
    | none => none
    | some s => (setupLoop max_dev_speed (b :: rest)).map (fun t => s :: t)

/-- The function `Spindle::setupSpeeds(max_dev_speed)` (lines 65-100) as a
function on the table `_speeds`; with fewer than two entries it returns at
once.  The result is `none` when a conversion to `uint32_t` is undefined. -/
def setupSpeeds (max_dev_speed : Nat) (speeds : List speedEntry) : Option (List speedEntry) :=
  if speeds.length < 2 then some speeds else setupLoop max_dev_speed speeds

/-- A freshly pushed entry `{ speed, percent }`; the remaining members are
zero-initialised. -/
def mkEntry (speed : Nat) (percent : ℚ) : speedEntry :=
  { speed := speed, percent := percent, offset := 0, scale := 0 }

/-- The function `Spindle::shelfSpeeds(min, max)` (lines 104-115): the table it
leaves in `_speeds`, with `minPercent = 100.0f * min / max` computed in `float`.
The result is `none` when `minPercent` is not finite (`max = 0`), a table
outside this embedding. -/
def shelfSpeeds (min max : Nat) : Option (List speedEntry) :=
  match fdiv binary32 (fmul binary32 (some 100) (ofUInt32 binary32 min))
      (ofUInt32 binary32 max) with
  | none => none
  | some minPercent =>
    some ([mkEntry 0 0, mkEntry 0 minPercent]
      ++ (if min ≠ 0 then [mkEntry min minPercent] else [])
      ++ [mkEntry max 100])

/-- The members of the global `sys` that `mapSpeed` uses. -/
structure system_t where
  spindle_speed_ovr : Nat
  spindle_speed : Nat
  deriving DecidableEq, Repr

/-- The scan `for (i = 0; i < num_segments; i++) if (speed < speeds[i + 1].speed) break;`
of `mapSpeed` (lines 130-134), started at index `i` with `n` iterations left
(`n = num_segments - i`); the result is the value of `i` after the loop. -/
def segmentScan (speeds : List speedEntry) (speed : Nat) : Nat → Nat → Nat
  | 0, i => i
  | n + 1, i =>
    if speed < (speeds.getD (i + 1) default).speed then i
    else segmentScan speeds speed n (i + 1)

/-- The override scaling `speed * sys.spindle_speed_ovr / 100` of `mapSpeed`
(line 118), in 32-bit unsigned arithmetic. -/
def effectiveSpeed (sys : system_t) (speed : Nat) : Nat :=
  mul32 speed sys.spindle_speed_ovr / 100

/-- Lines 120-148 of `mapSpeed`: the device speed returned for the already
scaled `speed`, from a non-empty table. -/
def deviceSpeed (speeds : List speedEntry) (speed : Nat) : Nat :=
  let first := speeds.getD 0 default
  if speed < first.speed then first.offset
  else if speed = 0 then first.offset
  else
    let num_segments := speeds.length - 1
    let i := segmentScan speeds speed num_segments 0
    let seg := speeds.getD i default
    let dev_speed := seg.offset
    if i < num_segments then
      add32 dev_speed (mul32 (sub32 speed seg.speed) seg.scale >>> 16)
    else dev_speed

/-- The function `Spindle::mapSpeed(speed)` (lines 117-149): the returned device
speed together with `sys` after the assignment to `sys.spindle_speed`.  Reading
`speeds[0]` of an empty table is undefined (`none`). -/
def mapSpeed (speeds : List speedEntry) (sys : system_t) (speed : Nat) :
    Option (Nat × system_t) :=
  let speed := effectiveSpeed sys speed
  let sys := { sys with spindle_speed := speed }
  match speeds with
  | [] => none
  | _ :: _ => some (deviceSpeed speeds speed, sys)

/-- The table of the scenario `(0 %, 0), (20 %, 0), (20 %, 1000), (100 %, 10000)`
with the offsets and scales `setupSpeeds(1000)` gives it. -/
def scenarioTable : List speedEntry :=
  [⟨0, 0, 0, 0⟩, ⟨0, 20, 200, 0⟩, ⟨1000, 20, 200, 5825⟩, ⟨10000, 100, 1000, 0⟩]

/-- What `switchSpindle` does to the outside world, in program order: a call of
`stop()` on a spindle, an assignment to the reference `spindle`, and the two log
lines. -/
inductive Event where
  | stop (s : Nat)
  | assign (s : Nat)
  | logError
  | logInfo (s : Nat)
  deriving DecidableEq, Repr

/-- One iteration of the candidate search (lines 38-40).  Spindles are referred
to by address (a natural number); `tool s` is the member `_tool` of the spindle
at address `s`. -/
def candidateStep (tool : Nat → Int) (new_tool : Nat) (candidate : Option Nat) (s : Nat) :
    Option Nat :=
  match candidate with
  | none => if tool s ≤ (new_tool : Int) then some s else none
  | some c => if tool s ≤ (new_tool : Int) ∧ tool c < tool s then some s else some c

/-- The candidate search `for (auto s : spindles)` (lines 36-41). -/
def findCandidate (tool : Nat → Int) (new_tool : Nat) (spindles : List Nat) : Option Nat :=
  spindles.foldl (candidateStep tool new_tool) none

/-- The function `Spindle::switchSpindle(new_tool, spindles, spindle)`
(lines 34-59).  `spindle` is the reference parameter (`none` for `nullptr`); the
result is its value after the call and the events in program order. -/
def switchSpindle (tool : Nat → Int) (new_tool : Nat) (spindles : List Nat)
    (spindle : Option Nat) : Option Nat × List Event :=
  match findCandidate tool new_tool spindles with
  | some candidate =>
    if some candidate ≠ spindle then
      match spindle with
      | some old => (some candidate, [.stop old, .assign candidate, .logInfo candidate])
      | none => (some candidate, [.assign candidate, .logInfo candidate])
    else (spindle, [.logInfo candidate])
  | none =>
    match spindle with
    | none =>
      match spindles with
      | [] => (none, [.logError])
      | first :: _ => (some first, [.assign first, .logInfo first])
    | some cur => (some cur, [.logInfo cur])

/-- Following the specification's words for `select`: the tool the request
resolves to is the nearest-below match or, when there is none, the first
registered tool. -/
def resolvedSpindle (tool : Nat → Int) (new_tool : Nat) (spindles : List Nat) : Option Nat :=
  match findCandidate tool new_tool spindles with
  | some candidate => some candidate
  | none => spindles.head?

end Spindles

/-! ## PWM channels and precision: `System.cpp` -/

namespace System

/-- Result of one call of `sys_get_next_PWM_chan_num`: the returned `int8_t`, the
static counter `next_PWM_chan_num` after the call, and whether `error_serial`
was called. -/
structure ChanResult where
  value : Int
  next : Nat
  error : Bool
  deriving DecidableEq, Repr

/-- The function `sys_get_next_PWM_chan_num()` (System.cpp lines 156-164) as a
function of the current value of the static `uint8_t next_PWM_chan_num`. -/
def sys_get_next_PWM_chan_num (next_PWM_chan_num : Nat) : ChanResult :=
  if next_PWM_chan_num < 8 then
    { value := (next_PWM_chan_num : Int), next := (next_PWM_chan_num + 1) % 256, error := false }
  else
    { value := -1, next := next_PWM_chan_num, error := true }

/-- The static counter after `k` calls, from its initial value 2. -/
def chanCounterAfter : Nat → Nat
  | 0 => 2
  | k + 1 => (sys_get_next_PWM_chan_num (chanCounterAfter k)).next

/-- The loop `while ((1u << precision) < period && precision <= 16) precision++;`
of `sys_calc_pwm_precision` (System.cpp lines 176-178) with `precision` a
`uint8_t`; `fuel` bounds the number of iterations and `none` means it ran out. -/
def precisionLoop (period : Nat) : Nat → Nat → Option Nat
  | 0, _ => none
  | fuel + 1, precision =>
    if (1 <<< precision) % Spindles.U32 < period ∧ precision ≤ 16 then
      precisionLoop period fuel ((precision + 1) % 256)
    else some precision

/-- The function `sys_calc_pwm_precision(freq)` (System.cpp lines 172-181).  The
period is `uint32_t(80000000 / freq)`, undefined (`none`) for `freq = 0`; the
returned `uint8_t` is `precision - 1` reduced modulo 256.  The loop runs at most
17 times, so a fuel of 18 never runs out. -/
def sys_calc_pwm_precision (freq : Nat) : Option Nat :=
  match Spindles.udiv 80000000 freq with
  | none => none
  | some period =>
    (precisionLoop (period % Spindles.U32) 18 0).map (fun precision => (precision + 255) % 256)

end System

/-! ## `spinDelay`: the transition governor -/

namespace Spindles

/-- Unsigned subtraction agrees with the difference when nothing is borrowed. -/
theorem sub32_of_le {a b : Nat} (hb : b ≤ a) (ha : a < U32) : sub32 a b = a - b := by
  unfold sub32 U32 at *
  omega

/-- C1 (what the code does): a request for the direction the spindle already
turns in is not ramped by the speed difference.  With current state `Cw` the
body of `case Cw` runs on into `case Ccw`, so `Cw -> Cw` is ramped like a
reversal (down by the current speed, up by the full target speed); with
current state `Ccw` and a lower target the down ramp is the wrapped unsigned
value of `speed - _current_speed`.  At `Cw 300 -> Cw 500` with both ramp times
and `maxSpeed()` equal to 1000 the delays are 300 and 500 instead of one delay
of 200; at `Ccw 500 -> Ccw 300` the delay is 4294767 instead of 200. -/
theorem spinDelay_same_direction_code :
    (∀ c up dn mx s : Nat,
      spinRamp ⟨.Cw, c, up, dn, mx⟩ .Cw s = { up := s, down := c }) ∧
    (∀ c up dn mx s : Nat,
      spinRamp ⟨.Ccw, c, up, dn, mx⟩ .Ccw s =
        if s > c then { up := sub32 s c, down := 0 } else { up := 0, down := sub32 s c }) ∧
    spinDelay ⟨.Cw, 300, 1000, 1000, 1000⟩ .Cw 500
      = some ([300, 500], ⟨.Cw, 500, 1000, 1000, 1000⟩) ∧
    spinDelay ⟨.Ccw, 500, 1000, 1000, 1000⟩ .Ccw 300
      = some ([4294767], ⟨.Ccw, 300, 1000, 1000, 1000⟩) := by
  refine ⟨?_, ?_, by decide, by decide⟩
  · intro c up dn mx s
    simp only [spinRamp, caseCw, caseCcw]
  · intro c up dn mx s
    simp only [spinRamp, caseCcw]

/-- C2 (what the code does): stopping a running spindle is not a pure down
ramp.  `case Disable` runs on into `case Cw` and `case Ccw`: from `Cw` the
ramps are down by the current speed and up by the requested speed; from `Ccw`
the last branch overwrites them from the comparison of the two speeds.  At
`Cw 300 -> Disable` with requested speed 100 the delays are 300 and 100; at
`Ccw 300 -> Disable` with requested speed 0 the single delay is 4294667
instead of 300 (ramp times and `maxSpeed()` equal to 1000). -/
theorem spinDelay_disable_code :
    (∀ c up dn mx s : Nat,
      spinRamp ⟨.Cw, c, up, dn, mx⟩ .Disable s = { up := s, down := c }) ∧
    (∀ c up dn mx s : Nat,
      spinRamp ⟨.Ccw, c, up, dn, mx⟩ .Disable s =
        if s > c then { up := sub32 s c, down := c } else { up := s, down := sub32 s c }) ∧
    spinDelay ⟨.Cw, 300, 1000, 1000, 1000⟩ .Disable 100
      = some ([300, 100], ⟨.Disable, 100, 1000, 1000, 1000⟩) ∧
    spinDelay ⟨.Ccw, 300, 1000, 1000, 1000⟩ .Disable 0
      = some ([4294667], ⟨.Disable, 0, 1000, 1000, 1000⟩) := by
  refine ⟨?_, ?_, by decide, by decide⟩
  · intro c up dn mx s
    simp only [spinRamp, caseDisable, caseCw, caseCcw]
  · intro c up dn mx s
    simp only [spinRamp, caseDisable, caseCw, caseCcw]

/-- C3 (what the code does): of the two reversals only `Cw -> Ccw` is ramped
down by the current speed and up by the target speed.  For `Ccw -> Cw` the body
of `case Cw` runs on into `case Ccw`, whose same-direction branch overwrites
one of the two ramps.  At `Ccw 300 -> Cw 300` (ramp times and `maxSpeed()` equal
to 1000) there is a single delay of 300 and no down delay, while
`Cw 300 -> Ccw 300` gives the delays 300 and 300. -/
theorem spinDelay_reversal_code :
    (∀ c up dn mx s : Nat,
      spinRamp ⟨.Cw, c, up, dn, mx⟩ .Ccw s = { up := s, down := c }) ∧
    (∀ c up dn mx s : Nat,
      spinRamp ⟨.Ccw, c, up, dn, mx⟩ .Cw s =
        if s > c then { up := sub32 s c, down := c } else { up := s, down := sub32 s c }) ∧
    spinRamp ⟨.Ccw, 300, 1000, 1000, 1000⟩ .Cw 300 = { up := 300, down := 0 } ∧
    spinDelay ⟨.Ccw, 300, 1000, 1000, 1000⟩ .Cw 300
      = some ([300], ⟨.Cw, 300, 1000, 1000, 1000⟩) ∧
    spinDelay ⟨.Cw, 300, 1000, 1000, 1000⟩ .Ccw 300
      = some ([300, 300], ⟨.Ccw, 300, 1000, 1000, 1000⟩) := by
  refine ⟨?_, ?_, by decide, by decide, by decide⟩
  · intro c up dn mx s
    simp only [spinRamp, caseCcw]
  · intro c up dn mx s
    simp only [spinRamp, caseCw, caseCcw]

/-- C4: starting from stop.  With current state `Disable` (any stored speed) and
target `Cw` or `Ccw` at speed `s`, the up ramp is `s` and the down ramp is `0`;
`spinDelay` performs no delay when `s = 0` and otherwise exactly one delay, of
`_spinup_ms * s / maxSpeed()` in 32-bit unsigned arithmetic (the quotient
being defined when `maxSpeed()` is not zero), and then stores the target state
and speed.  With `_spinup_ms = 1000`, `maxSpeed() = 1000`, `s = 500` the single
delay is 500 ms. -/
theorem spinDelay_from_disable :
    (∀ c up dn mx s : Nat,
      spinRamp ⟨.Disable, c, up, dn, mx⟩ .Cw s = { up := s, down := 0 } ∧
      spinRamp ⟨.Disable, c, up, dn, mx⟩ .Ccw s = { up := s, down := 0 }) ∧
    (∀ (c up dn mx s : Nat) (d : SpindleState), d = .Cw ∨ d = .Ccw →
      spinDelay ⟨.Disable, c, up, dn, mx⟩ d s =
        if s = 0 then some ([], ⟨d, s, up, dn, mx⟩)
        else if mx = 0 then none
        else some ([(up * s) % 2 ^ 32 / mx], ⟨d, s, up, dn, mx⟩)) ∧
    spinDelay ⟨.Disable, 0, 1000, 0, 1000⟩ .Cw 500 = some ([500], ⟨.Cw, 500, 1000, 0, 1000⟩) ∧
    spinDelay ⟨.Disable, 0, 1000, 0, 1000⟩ .Ccw 500
      = some ([500], ⟨.Ccw, 500, 1000, 0, 1000⟩) := by
  refine ⟨?_, ?_, by decide, by decide⟩
  · intro c up dn mx s
    simp only [spinRamp, caseCw, caseCcw, and_self]
  · intro c up dn mx s d hd
    have hr : spinRamp ⟨.Disable, c, up, dn, mx⟩ d s = { up := s, down := 0 } := by
      rcases hd with rfl | rfl <;> simp only [spinRamp, caseCw, caseCcw]
    simp only [spinDelay, hr, rampDelay, udiv, mul32, U32]
    by_cases hs : s = 0
    · simp [hs]
    · by_cases hm : mx = 0
      · simp [hs, hm]
      · simp [hs, hm]

/-- Witness for C4: the scenario of the specification, `Disable -> Cw` at speed
500 with `_spinup_ms = 1000` and `maxSpeed() = 1000`. -/
theorem spinDelay_from_disable_witness :
    spinDelay ⟨.Disable, 0, 1000, 0, 1000⟩ .Cw 500
      = if 500 = 0 then some ([], ⟨.Cw, 500, 1000, 0, 1000⟩)
        else if 1000 = 0 then none
        else some ([(1000 * 500) % 2 ^ 32 / 1000], ⟨.Cw, 500, 1000, 0, 1000⟩) :=
  spinDelay_from_disable.2.1 0 1000 0 1000 500 .Cw (Or.inl rfl)

/-- C5 (what the code does): a request for `Unknown` performs no delay, but it is
not rejected: `case Unknown` leaves the `switch` with `break` and the two final
assignments store `Unknown` and the requested speed.  A spindle turning `Cw` at
300 is recorded as `Unknown` at speed 0 after `spinDelay(Unknown, 0)`. -/
theorem spinDelay_unknown_code :
    (∀ (sp : Spindle) (s : Nat),
      spinDelay sp .Unknown s
        = some ([], { sp with _current_state := .Unknown, _current_speed := s })) ∧
    spinDelay ⟨.Cw, 300, 1000, 1000, 1000⟩ .Unknown 0
      = some ([], ⟨.Unknown, 0, 1000, 1000, 1000⟩) := by
  refine ⟨?_, by decide⟩
  intro sp s
  simp [spinDelay, spinRamp, rampDelay]

/-- C6 (what the code does): `spinDelay` has no guard on `maxSpeed()`.  With
`maxSpeed() = 0`, starting a stopped spindle at any non-zero speed evaluates
`_spinup_ms * up / maxSpeed()`, a division by zero; and when both ramps are
zero the new state is stored although `maxSpeed()` is 0. -/
theorem spinDelay_maxSpeed_zero_code :
    (∀ c up dn s : Nat, spinDelay ⟨.Disable, c, up, dn, 0⟩ .Cw (s + 1) = none) ∧
    spinDelay ⟨.Disable, 0, 1000, 1000, 0⟩ .Cw 500 = none ∧
    spinDelay ⟨.Cw, 300, 1000, 1000, 0⟩ .Disable 0 = none ∧
    spinDelay ⟨.Disable, 0, 1000, 1000, 0⟩ .Disable 0
      = some ([], ⟨.Disable, 0, 1000, 1000, 0⟩) := by
  refine ⟨?_, by decide, by decide, by decide⟩
  intro c up dn s
  simp [spinDelay, spinRamp, caseCw, caseCcw, rampDelay, udiv]

/-! ## `mapSpeed`: the calibration mapper -/

/-- Specification of the scan: the result lies between the start index and the
end, the entry after it exceeds `speed` unless the end was reached, and no
earlier entry of the scanned range does. -/
theorem segmentScan_spec (speeds : List speedEntry) (speed : Nat) (n k : Nat) :
    k ≤ segmentScan speeds speed n k ∧ segmentScan speeds speed n k ≤ k + n ∧
    (segmentScan speeds speed n k < k + n →
      speed < (speeds.getD (segmentScan speeds speed n k + 1) default).speed) ∧
    (∀ j, k ≤ j → j < segmentScan speeds speed n k →
      ¬ speed < (speeds.getD (j + 1) default).speed) := by
  induction n generalizing k with
  | zero => simp [segmentScan]; intro j h1 h2; omega
  | succ n ih =>
    unfold segmentScan
    by_cases h : speed < (speeds.getD (k + 1) default).speed
    · simp only [h, if_true]
      refine ⟨le_refl _, by omega, fun _ => trivial, ?_⟩
      intro j h1 h2; omega
    · simp only [h, if_false]
      obtain ⟨h1, h2, h3, h4⟩ := ih (k + 1)
      refine ⟨by omega, by omega, fun hlt => h3 (by omega), ?_⟩
      intro j hj1 hj2
      rcases Nat.eq_or_lt_of_le hj1 with rfl | hlt
      · exact h
      · exact h4 j hlt hj2

/-- In a table with non-decreasing speeds, a later entry has no smaller speed. -/
theorem speed_le_of_sorted {speeds : List speedEntry}
    (h : (speeds.map speedEntry.speed).Sorted (· ≤ ·)) {i j : Nat} (hij : i ≤ j)
    (hj : j < speeds.length) :
    (speeds.getD i default).speed ≤ (speeds.getD j default).speed := by
  have hi : i < speeds.length := lt_of_le_of_lt hij hj
  rw [List.getD_eq_getElem _ _ hj, List.getD_eq_getElem _ _ hi]
  have hi2 : i < (speeds.map speedEntry.speed).length := by simpa using hi
  have hj2 : j < (speeds.map speedEntry.speed).length := by simpa using hj
  have := h.rel_get_of_le (a := ⟨i, hi2⟩) (b := ⟨j, hj2⟩) (by simpa using hij)
  simpa using this

/-- The effective speed is a 32-bit value. -/
theorem effectiveSpeed_lt (sys : system_t) (speed : Nat) : effectiveSpeed sys speed < U32 := by
  unfold effectiveSpeed mul32
  have : speed * sys.spindle_speed_ovr % U32 < U32 := Nat.mod_lt _ (by decide)
  omega

/-- The scan finds the index `i` as soon as entry `i + 1` is the first one whose
speed exceeds `e`. -/
theorem segmentScan_eq_of_first (speeds : List speedEntry) (e i : Nat)
    (hi : i + 1 < speeds.length)
    (hlt : e < (speeds.getD (i + 1) default).speed)
    (hmin : ∀ j, j < i → ¬ e < (speeds.getD (j + 1) default).speed) :
    segmentScan speeds e (speeds.length - 1) 0 = i := by
  obtain ⟨-, h2, h3, h4⟩ := segmentScan_spec speeds e (speeds.length - 1) 0
  rcases Nat.lt_trichotomy (segmentScan speeds e (speeds.length - 1) 0) i with h | h | h
  · exact absurd (h3 (by omega)) (hmin _ h)
  · exact h
  · exact absurd hlt (h4 i (Nat.zero_le _) h)

/-- Entry `i` found by the scan starts at or below the scanned speed. -/
theorem segmentScan_speed_le (speeds : List speedEntry) (e : Nat)
    (h0 : ¬ e < (speeds.getD 0 default).speed) :
    (speeds.getD (segmentScan speeds e (speeds.length - 1) 0) default).speed ≤ e := by
  obtain ⟨-, -, -, h4⟩ := segmentScan_spec speeds e (speeds.length - 1) 0
  rcases Nat.eq_zero_or_pos (segmentScan speeds e (speeds.length - 1) 0) with h | h
  · rw [h]; omega
  · have := h4 (segmentScan speeds e (speeds.length - 1) 0 - 1) (Nat.zero_le _) (by omega)
    rw [Nat.sub_add_cancel h] at this
    omega

/-- First return paths of `mapSpeed`: below the first entry, or at speed zero,
the first offset is returned. -/
theorem deviceSpeed_low (speeds : List speedEntry) (e : Nat)
    (h : e = 0 ∨ e < (speeds.getD 0 default).speed) :
    deviceSpeed speeds e = (speeds.getD 0 default).offset := by
  unfold deviceSpeed
  by_cases h1 : e < (speeds.getD 0 default).speed
  · simp only [if_pos h1]
  · have h0 : e = 0 := h.resolve_right h1
    simp only [if_neg h1, if_pos h0]

/-- Last return path of `mapSpeed`: the scan result selects the segment. -/
theorem deviceSpeed_scan (speeds : List speedEntry) (e : Nat)
    (h1 : ¬ e < (speeds.getD 0 default).speed) (h0 : e ≠ 0) :
    deviceSpeed speeds e =
      if segmentScan speeds e (speeds.length - 1) 0 < speeds.length - 1 then
        add32 (speeds.getD (segmentScan speeds e (speeds.length - 1) 0) default).offset
          (mul32 (sub32 e (speeds.getD (segmentScan speeds e (speeds.length - 1) 0) default).speed)
            (speeds.getD (segmentScan speeds e (speeds.length - 1) 0) default).scale >>> 16)
      else (speeds.getD (segmentScan speeds e (speeds.length - 1) 0) default).offset := by
  unfold deviceSpeed
  simp only [if_neg h1, if_neg h0]

/-! ### Rounding to the nearest integer -/

theorem roundNearestEven_floor_le (y : ℚ) : Int.floor y ≤ roundNearestEven y := by
  unfold roundNearestEven
  split_ifs <;> omega

theorem roundNearestEven_le_floor_add_one (y : ℚ) : roundNearestEven y ≤ Int.floor y + 1 := by
  unfold roundNearestEven
  split_ifs <;> omega

/-- Rounding moves a value by at most one half. -/
theorem roundNearestEven_sub_le (y : ℚ) : |(roundNearestEven y : ℚ) - y| ≤ 1 / 2 := by
  have h1 : (Int.floor y : ℚ) ≤ y := Int.floor_le y
  have h2 : y < (Int.floor y : ℚ) + 1 := Int.lt_floor_add_one y
  unfold roundNearestEven
  rw [abs_le]
  split_ifs with ha hb hc
  · constructor <;> linarith
  · push_cast; constructor <;> linarith
  · have : y - (Int.floor y : ℚ) = 1 / 2 := le_antisymm (not_lt.mp hb) (not_lt.mp ha)
    constructor <;> linarith
  · have : y - (Int.floor y : ℚ) = 1 / 2 := le_antisymm (not_lt.mp hb) (not_lt.mp ha)
    push_cast; constructor <;> linarith

/-- Rounding does not cross an integer from below. -/
theorem roundNearestEven_le {y : ℚ} {K : Int} (h : y ≤ (K : ℚ)) : roundNearestEven y ≤ K := by
  have h1 : (Int.floor y : ℚ) ≤ y := Int.floor_le y
  have hfl : Int.floor y ≤ K := by exact_mod_cast le_trans h1 h
  by_cases hlt : Int.floor y < K
  · have := roundNearestEven_le_floor_add_one y
    omega
  · have hK : Int.floor y = K := by omega
    have hy : y = (K : ℚ) := le_antisymm h (by rw [← hK]; exact h1)
    unfold roundNearestEven
    rw [if_pos (by rw [hK, hy]; norm_num), hK]

/-- Rounding does not cross an integer from above. -/
theorem le_roundNearestEven {y : ℚ} {K : Int} (h : (K : ℚ) ≤ y) : K ≤ roundNearestEven y :=
  le_trans (Int.le_floor.mpr h) (roundNearestEven_floor_le y)

/-- An integer rounds to itself. -/
theorem roundNearestEven_intCast (K : Int) : roundNearestEven (K : ℚ) = K :=
  le_antisymm (roundNearestEven_le (le_refl _)) (le_roundNearestEven (le_refl _))

/-! ### The binade of a rational -/

/-- With enough steps the halving count is the binary logarithm. -/
theorem log2Steps_eq (fuel n : Nat) (h : n ≤ fuel) : log2Steps fuel n = Nat.log 2 n := by
  induction fuel generalizing n with
  | zero =>
    have : n = 0 := by omega
    subst this
    simp [log2Steps]
  | succ fuel ih =>
    unfold log2Steps
    by_cases h2 : n < 2
    · rw [if_pos h2, Nat.log_of_lt h2]
    · rw [if_neg h2, ih (n / 2) (by omega),
        Nat.log_of_one_lt_of_le (by decide) (by omega : 2 ≤ n)]

/-- The binade found for a non-zero rational contains its magnitude. -/
theorem log2Floor_spec {q : ℚ} (hq : q ≠ 0) :
    (2 : ℚ) ^ log2Floor q ≤ |q| ∧ |q| < (2 : ℚ) ^ (log2Floor q + 1) := by
  have hn0 : q.num.natAbs ≠ 0 := by
    simpa using Rat.num_ne_zero.mpr hq
  have hd0 : q.den ≠ 0 := q.den_nz
  have habs : |q| = (q.num.natAbs : ℚ) / (q.den : ℚ) := by
    rw [Rat.abs_def, Rat.divInt_eq_div]
    simp [Nat.cast_natAbs]
  have hdpos : (0 : ℚ) < (q.den : ℚ) := by exact_mod_cast Nat.pos_of_ne_zero hd0
  have ha := log2Steps_eq q.num.natAbs q.num.natAbs (le_refl _)
  have hb := log2Steps_eq q.den q.den (le_refl _)
  have hn1 : ((2 : ℚ) ^ Nat.log 2 q.num.natAbs) ≤ (q.num.natAbs : ℚ) := by
    exact_mod_cast Nat.pow_log_le_self 2 hn0
  have hn2 : (q.num.natAbs : ℚ) < (2 : ℚ) ^ (Nat.log 2 q.num.natAbs + 1) := by
    exact_mod_cast Nat.lt_pow_succ_log_self (by decide : 1 < 2) q.num.natAbs
  have hd1 : ((2 : ℚ) ^ Nat.log 2 q.den) ≤ (q.den : ℚ) := by
    exact_mod_cast Nat.pow_log_le_self 2 hd0
  have hd2 : (q.den : ℚ) < (2 : ℚ) ^ (Nat.log 2 q.den + 1) := by
    exact_mod_cast Nat.lt_pow_succ_log_self (by decide : 1 < 2) q.den
  have h2 : (2 : ℚ) ≠ 0 := by norm_num
  -- the magnitude lies strictly between `2 ^ (k - 1)` and `2 ^ (k + 1)`
  have hup : |q| < (2 : ℚ) ^ (((Nat.log 2 q.num.natAbs : Nat) : Int)
      - ((Nat.log 2 q.den : Nat) : Int) + 1) := by
    rw [habs, div_lt_iff₀ hdpos]
    have e : (2 : ℚ) ^ (((Nat.log 2 q.num.natAbs : Nat) : Int) - ((Nat.log 2 q.den : Nat) : Int) + 1)
        * (2 : ℚ) ^ Nat.log 2 q.den = (2 : ℚ) ^ (Nat.log 2 q.num.natAbs + 1) := by
      rw [← zpow_natCast, ← zpow_natCast, ← zpow_add₀ h2]
      congr 1
      push_cast
      ring
    calc (q.num.natAbs : ℚ) < (2 : ℚ) ^ (Nat.log 2 q.num.natAbs + 1) := hn2
      _ = (2 : ℚ) ^ (((Nat.log 2 q.num.natAbs : Nat) : Int) - ((Nat.log 2 q.den : Nat) : Int) + 1)
            * (2 : ℚ) ^ Nat.log 2 q.den := e.symm
      _ ≤ (2 : ℚ) ^ (((Nat.log 2 q.num.natAbs : Nat) : Int) - ((Nat.log 2 q.den : Nat) : Int) + 1)
            * (q.den : ℚ) := mul_le_mul_of_nonneg_left hd1 (le_of_lt (zpow_pos (by norm_num) _))
  have hlow : (2 : ℚ) ^ (((Nat.log 2 q.num.natAbs : Nat) : Int)
      - ((Nat.log 2 q.den : Nat) : Int) - 1) ≤ |q| := by
    rw [habs, le_div_iff₀ hdpos]
    have e : (2 : ℚ) ^ (((Nat.log 2 q.num.natAbs : Nat) : Int) - ((Nat.log 2 q.den : Nat) : Int) - 1)
        * (2 : ℚ) ^ (Nat.log 2 q.den + 1) = (2 : ℚ) ^ Nat.log 2 q.num.natAbs := by
      rw [← zpow_natCast, ← zpow_natCast, ← zpow_add₀ h2]
      congr 1
      push_cast
      ring
    calc (2 : ℚ) ^ (((Nat.log 2 q.num.natAbs : Nat) : Int) - ((Nat.log 2 q.den : Nat) : Int) - 1)
          * (q.den : ℚ)
        ≤ (2 : ℚ) ^ (((Nat.log 2 q.num.natAbs : Nat) : Int) - ((Nat.log 2 q.den : Nat) : Int) - 1)
          * (2 : ℚ) ^ (Nat.log 2 q.den + 1) :=
          mul_le_mul_of_nonneg_left (le_of_lt hd2) (le_of_lt (zpow_pos (by norm_num) _))
      _ = (2 : ℚ) ^ Nat.log 2 q.num.natAbs := e
      _ ≤ (q.num.natAbs : ℚ) := hn1
  unfold log2Floor
  rw [ha, hb]
  by_cases hk : (2 : ℚ) ^ (((Nat.log 2 q.num.natAbs : Nat) : Int)
      - ((Nat.log 2 q.den : Nat) : Int)) ≤ |q|
  · rw [if_pos hk]
    exact ⟨hk, hup⟩
  · rw [if_neg hk]
    refine ⟨hlow, ?_⟩
    rw [sub_add_cancel]
    exact lt_of_not_le hk

/-- The binade found is the integer binary logarithm of the magnitude. -/
theorem log2Floor_eq {q : ℚ} (hq : q ≠ 0) : log2Floor q = Int.log 2 |q| := by
  obtain ⟨h1, h2⟩ := log2Floor_spec hq
  have habs : 0 < |q| := abs_pos.mpr hq
  apply le_antisymm
  · rw [← Int.zpow_le_iff_le_log (by decide : 1 < 2) habs]
    simpa using h1
  · have : Int.log 2 |q| < log2Floor q + 1 := by
      rw [← Int.lt_zpow_iff_log_lt (by decide : 1 < 2) habs]
      simpa using h2
    omega

/-- The quantum in terms of the integer binary logarithm. -/
theorem quantum_eq (F : FloatFormat) {q : ℚ} (hq : q ≠ 0) :
    F.quantum q = max (Int.log 2 |q|) F.emin - ((F.prec : Int) - 1) := by
  unfold FloatFormat.quantum
  rw [log2Floor_eq hq]

/-! ### Rounding to a floating-point format -/

/-- The rounded value before the range check. -/
theorem round_eq_some {F : FloatFormat} {q r : ℚ} (h : F.round q = some r) :
    r = (roundNearestEven (q / (2 : ℚ) ^ F.quantum q) : ℚ) * (2 : ℚ) ^ F.quantum q := by
  unfold FloatFormat.round at h
  simp only at h
  split_ifs at h
  exact (Option.some.inj h).symm

theorem two_zpow_pos (c : Int) : (0 : ℚ) < (2 : ℚ) ^ c := zpow_pos (by norm_num) c

/-- Rounding keeps the sign: a non-negative value rounds to a non-negative one. -/
theorem round_nonneg {F : FloatFormat} {q r : ℚ} (h : F.round q = some r) (hq : 0 ≤ q) :
    0 ≤ r := by
  rw [round_eq_some h]
  have hu := two_zpow_pos (F.quantum q)
  have : (0 : Int) ≤ roundNearestEven (q / (2 : ℚ) ^ F.quantum q) :=
    le_roundNearestEven (by simpa using div_nonneg hq (le_of_lt hu))
  exact mul_nonneg (by exact_mod_cast this) (le_of_lt hu)

/-- Rounding keeps the sign: a non-positive value rounds to a non-positive one. -/
theorem round_nonpos {F : FloatFormat} {q r : ℚ} (h : F.round q = some r) (hq : q ≤ 0) :
    r ≤ 0 := by
  rw [round_eq_some h]
  have hu := two_zpow_pos (F.quantum q)
  have : roundNearestEven (q / (2 : ℚ) ^ F.quantum q) ≤ (0 : Int) :=
    roundNearestEven_le (by simpa using div_nonpos_of_nonpos_of_nonneg hq (le_of_lt hu))
  exact mul_nonpos_of_nonpos_of_nonneg (by exact_mod_cast this) (le_of_lt hu)

/-- The rounding error is at most half a unit in the last place. -/
theorem round_sub_le_raw (F : FloatFormat) (q : ℚ) :
    |(roundNearestEven (q / (2 : ℚ) ^ F.quantum q) : ℚ) * (2 : ℚ) ^ F.quantum q - q|
      ≤ (2 : ℚ) ^ F.quantum q / 2 := by
  have hu := two_zpow_pos (F.quantum q)
  have h := roundNearestEven_sub_le (q / (2 : ℚ) ^ F.quantum q)
  have e : (roundNearestEven (q / (2 : ℚ) ^ F.quantum q) : ℚ) * (2 : ℚ) ^ F.quantum q - q
      = ((roundNearestEven (q / (2 : ℚ) ^ F.quantum q) : ℚ) - q / (2 : ℚ) ^ F.quantum q)
        * (2 : ℚ) ^ F.quantum q := by
    field_simp
  rw [e, abs_mul, abs_of_pos hu]
  calc |(roundNearestEven (q / (2 : ℚ) ^ F.quantum q) : ℚ) - q / (2 : ℚ) ^ F.quantum q|
        * (2 : ℚ) ^ F.quantum q ≤ 1 / 2 * (2 : ℚ) ^ F.quantum q :=
        mul_le_mul_of_nonneg_right h (le_of_lt hu)
    _ = (2 : ℚ) ^ F.quantum q / 2 := by ring

/-- Half a unit in the last place is a `2 ^ -prec` fraction of the value, or
half the smallest subnormal step. -/
theorem half_quantum_le (F : FloatFormat) {q : ℚ} (hq : q ≠ 0) :
    (2 : ℚ) ^ F.quantum q / 2
      ≤ |q| * (2 : ℚ) ^ (-(F.prec : Int)) + (2 : ℚ) ^ (F.emin - (F.prec : Int)) := by
  have habs : 0 < |q| := abs_pos.mpr hq
  have hlog : (2 : ℚ) ^ Int.log 2 |q| ≤ |q| := by
    have := Int.zpow_log_le_self (b := 2) (r := |q|) (by norm_num) habs
    simpa using this
  have hhalf : ∀ c : Int, (2 : ℚ) ^ (c - ((F.prec : Int) - 1)) / 2 = (2 : ℚ) ^ (c - (F.prec : Int)) := by
    intro c
    have : c - ((F.prec : Int) - 1) = (c - (F.prec : Int)) + 1 := by ring
    rw [this, zpow_add₀ (by norm_num : (2 : ℚ) ≠ 0)]
    norm_num
  rw [quantum_eq F hq, hhalf]
  rcases le_total (Int.log 2 |q|) F.emin with h | h
  · rw [max_eq_right h]
    have : 0 ≤ |q| * (2 : ℚ) ^ (-(F.prec : Int)) :=
      mul_nonneg (le_of_lt habs) (le_of_lt (two_zpow_pos _))
    linarith
  · rw [max_eq_left h]
    have e : (2 : ℚ) ^ (Int.log 2 |q| - (F.prec : Int))
        = (2 : ℚ) ^ Int.log 2 |q| * (2 : ℚ) ^ (-(F.prec : Int)) := by
      rw [sub_eq_add_neg, zpow_add₀ (by norm_num : (2 : ℚ) ≠ 0)]
    rw [e]
    have h1 := mul_le_mul_of_nonneg_right hlog (le_of_lt (two_zpow_pos (-(F.prec : Int))))
    have h2 := two_zpow_pos (F.emin - (F.prec : Int))
    linarith

/-- Rounding of zero. -/
theorem round_zero (F : FloatFormat) : F.round 0 = some 0 := by
  unfold FloatFormat.round
  have : roundNearestEven ((0 : ℚ) / (2 : ℚ) ^ F.quantum 0) = 0 := by
    rw [zero_div]
    exact_mod_cast roundNearestEven_intCast 0
  simp only [this, Int.cast_zero, zero_mul, abs_zero]
  rw [if_pos (two_zpow_pos _)]

/-- Error bound: a value that rounds to a finite one moves by at most a
`2 ^ -prec` fraction of itself plus half the smallest subnormal step. -/
theorem round_sub_le {F : FloatFormat} {q r : ℚ} (h : F.round q = some r) :
    |r - q| ≤ |q| * (2 : ℚ) ^ (-(F.prec : Int)) + (2 : ℚ) ^ (F.emin - (F.prec : Int)) := by
  by_cases hq : q = 0
  · subst hq
    have hr : r = 0 := by
      rw [round_eq_some h, zero_div]
      have : roundNearestEven (0 : ℚ) = 0 := by exact_mod_cast roundNearestEven_intCast 0
      rw [this]; simp
    rw [hr]
    simp only [sub_zero, abs_zero, zero_mul, zero_add]
    exact le_of_lt (two_zpow_pos _)
  · rw [round_eq_some h]
    exact le_trans (round_sub_le_raw F q) (half_quantum_le F hq)

/-- A value well inside the range of the format rounds to a finite value. -/
theorem round_isSome (F : FloatFormat) (q : ℚ)
    (h : |q| * (1 + (2 : ℚ) ^ (-(F.prec : Int))) + (2 : ℚ) ^ (F.emin - (F.prec : Int))
      < (2 : ℚ) ^ (F.emax + 1)) :
    ∃ r, F.round q = some r := by
  unfold FloatFormat.round
  simp only
  by_cases hq : q = 0
  · subst hq
    have : roundNearestEven ((0 : ℚ) / (2 : ℚ) ^ F.quantum 0) = 0 := by
      rw [zero_div]
      exact_mod_cast roundNearestEven_intCast 0
    simp only [this, Int.cast_zero, zero_mul, abs_zero]
    rw [if_pos (two_zpow_pos _)]
    exact ⟨0, rfl⟩
  · have h1 := le_trans (round_sub_le_raw F q) (half_quantum_le F hq)
    have h2 : |(roundNearestEven (q / (2 : ℚ) ^ F.quantum q) : ℚ) * (2 : ℚ) ^ F.quantum q|
        ≤ |q| + |(roundNearestEven (q / (2 : ℚ) ^ F.quantum q) : ℚ) * (2 : ℚ) ^ F.quantum q - q| := by
      have := abs_add q ((roundNearestEven (q / (2 : ℚ) ^ F.quantum q) : ℚ) * (2 : ℚ) ^ F.quantum q - q)
      simpa using this
    rw [if_pos (by linarith)]
    exact ⟨_, rfl⟩

/-- For a non-positive exponent, a natural number is an integer multiple of the
power of two. -/
theorem natCast_div_two_zpow (n : Nat) {c : Int} (hc : c ≤ 0) :
    (n : ℚ) / (2 : ℚ) ^ c = ((n * 2 ^ (-c).toNat : Nat) : Int) := by
  have h2 : (2 : ℚ) ^ c = ((2 : ℚ) ^ (-c).toNat)⁻¹ := by
    have hc' : c = -((-c).toNat : Int) := by
      rw [Int.toNat_of_nonneg (by omega)]; ring
    conv_lhs => rw [hc']
    rw [zpow_neg, zpow_natCast]
  rw [h2, div_inv_eq_mul]
  push_cast
  ring

/-- The quantum of a value below `2 ^ prec` is at most one. -/
theorem quantum_nonpos (F : FloatFormat) {q : ℚ} (n : Nat) (h0 : 0 < q) (hq : q ≤ (n : ℚ))
    (hn : n < 2 ^ F.prec) (hemin : F.emin ≤ (F.prec : Int) - 1) : F.quantum q ≤ 0 := by
  have hn0 : n ≠ 0 := by
    rintro rfl
    simp at hq
    linarith
  have h1 : Int.log 2 |q| ≤ Int.log 2 (n : ℚ) := by
    rw [abs_of_pos h0]
    exact Int.log_mono_right h0 hq
  have h2 : Int.log 2 (n : ℚ) = (Nat.log 2 n : Int) := Int.log_natCast 2 n
  have h3 : Nat.log 2 n < F.prec := Nat.log_lt_of_lt_pow hn0 hn
  rw [quantum_eq F (ne_of_gt h0)]
  have : max (Int.log 2 |q|) F.emin ≤ (F.prec : Int) - 1 := by
    apply max_le _ hemin
    omega
  omega

/-- A natural number below `2 ^ prec` is a value of the format. -/
theorem round_natCast (F : FloatFormat) (n : Nat) (hn : n < 2 ^ F.prec)
    (hemin : F.emin ≤ (F.prec : Int) - 1) (hemax : (F.prec : Int) ≤ F.emax + 1) :
    F.round (n : ℚ) = some (n : ℚ) := by
  by_cases hn0 : n = 0
  · subst hn0
    simpa using round_zero F
  · have hpos : (0 : ℚ) < (n : ℚ) := by exact_mod_cast Nat.pos_of_ne_zero hn0
    have hc := quantum_nonpos F n hpos (le_refl _) hn hemin
    have hu := two_zpow_pos (F.quantum (n : ℚ))
    have hraw : (roundNearestEven ((n : ℚ) / (2 : ℚ) ^ F.quantum (n : ℚ)) : ℚ)
        * (2 : ℚ) ^ F.quantum (n : ℚ) = (n : ℚ) := by
      rw [natCast_div_two_zpow n hc, roundNearestEven_intCast, ← natCast_div_two_zpow n hc]
      field_simp
    unfold FloatFormat.round
    simp only [hraw]
    rw [if_pos]
    rw [abs_of_pos hpos]
    have h1 : (n : ℚ) < (2 : ℚ) ^ (F.prec : Int) := by
      rw [zpow_natCast]
      exact_mod_cast hn
    exact lt_of_lt_of_le h1 (zpow_le_zpow_right₀ (by norm_num) hemax)

/-- Rounding does not cross a natural number below `2 ^ prec`. -/
theorem round_le_natCast {F : FloatFormat} {q r : ℚ} (n : Nat) (h : F.round q = some r)
    (hq : q ≤ (n : ℚ)) (hn : n < 2 ^ F.prec) (hemin : F.emin ≤ (F.prec : Int) - 1) :
    r ≤ (n : ℚ) := by
  rcases le_or_lt q 0 with h0 | h0
  · exact le_trans (round_nonpos h h0) (Nat.cast_nonneg n)
  · have hc := quantum_nonpos F n h0 hq hn hemin
    have hu := two_zpow_pos (F.quantum q)
    rw [round_eq_some h]
    have hK := natCast_div_two_zpow n hc
    have hle : q / (2 : ℚ) ^ F.quantum q ≤ (((n * 2 ^ (-F.quantum q).toNat : Nat) : Int) : ℚ) := by
      rw [← hK]
      exact div_le_div_of_nonneg_right hq (le_of_lt hu)
    have hr := roundNearestEven_le hle
    have hr' : (roundNearestEven (q / (2 : ℚ) ^ F.quantum q) : ℚ)
        ≤ (n : ℚ) / (2 : ℚ) ^ F.quantum q := by
      rw [hK]
      exact_mod_cast hr
    calc (roundNearestEven (q / (2 : ℚ) ^ F.quantum q) : ℚ) * (2 : ℚ) ^ F.quantum q
        ≤ (n : ℚ) / (2 : ℚ) ^ F.quantum q * (2 : ℚ) ^ F.quantum q :=
          mul_le_mul_of_nonneg_right hr' (le_of_lt hu)
      _ = (n : ℚ) := by field_simp

/-- The type `float` is fine. -/
theorem binary32_fine : binary32.Fine := by
  unfold FloatFormat.Fine binary32
  decide

/-- The type `double` is fine. -/
theorem binary64_fine : binary64.Fine := by
  unfold FloatFormat.Fine binary64
  decide

/-- Rounding of a bounded non-negative value: the result is finite,
non-negative and at most the bound times `kappa` plus `eta`. -/
theorem round_bound {F : FloatFormat} (hF : F.Fine) {q B : ℚ} (h0 : 0 ≤ q) (hB : q ≤ B)
    (hB2 : B ≤ 2 ^ 100) :
    ∃ r, F.round q = some r ∧ 0 ≤ r ∧ r ≤ B * kappa + eta := by
  obtain ⟨hprec, hemin, hemax⟩ := hF
  have hp : (2 : ℚ) ^ (-(F.prec : Int)) ≤ 1 / 2 ^ 24 := by
    have : (2 : ℚ) ^ (-(F.prec : Int)) ≤ (2 : ℚ) ^ (-(24 : Int)) :=
      zpow_le_zpow_right₀ (by norm_num) (by omega)
    calc (2 : ℚ) ^ (-(F.prec : Int)) ≤ (2 : ℚ) ^ (-(24 : Int)) := this
      _ = 1 / 2 ^ 24 := by norm_num [zpow_neg]
  have he : (2 : ℚ) ^ (F.emin - (F.prec : Int)) ≤ 1 / 2 ^ 150 := by
    have : (2 : ℚ) ^ (F.emin - (F.prec : Int)) ≤ (2 : ℚ) ^ (-(150 : Int)) :=
      zpow_le_zpow_right₀ (by norm_num) (by omega)
    calc (2 : ℚ) ^ (F.emin - (F.prec : Int)) ≤ (2 : ℚ) ^ (-(150 : Int)) := this
      _ = 1 / 2 ^ 150 := by norm_num [zpow_neg]
  have hmax : (2 : ℚ) ^ (128 : Int) ≤ (2 : ℚ) ^ (F.emax + 1) :=
    zpow_le_zpow_right₀ (by norm_num) (by omega)
  have hp0 := two_zpow_pos (-(F.prec : Int))
  have habs : |q| = q := abs_of_nonneg h0
  have hq100 : q ≤ 2 ^ 100 := le_trans hB hB2
  have hfin : |q| * (1 + (2 : ℚ) ^ (-(F.prec : Int))) + (2 : ℚ) ^ (F.emin - (F.prec : Int))
      < (2 : ℚ) ^ (F.emax + 1) := by
    rw [habs]
    have h1 : q * (1 + (2 : ℚ) ^ (-(F.prec : Int))) ≤ 2 ^ 100 * (1 + 1 / 2 ^ 24) :=
      mul_le_mul hq100 (by linarith) (by linarith) (by norm_num)
    have h128 : (2 : ℚ) ^ 100 * (1 + 1 / 2 ^ 24) + 1 / 2 ^ 150 < (2 : ℚ) ^ (128 : Int) := by
      norm_num
    linarith
  obtain ⟨r, hr⟩ := round_isSome F q hfin
  refine ⟨r, hr, round_nonneg hr h0, ?_⟩
  have herr := round_sub_le hr
  rw [habs] at herr
  have h1 : r - q ≤ q * (2 : ℚ) ^ (-(F.prec : Int)) + (2 : ℚ) ^ (F.emin - (F.prec : Int)) :=
    le_trans (le_abs_self _) herr
  have h2 : q * (2 : ℚ) ^ (-(F.prec : Int)) ≤ B * (1 / 2 ^ 24) :=
    mul_le_mul hB hp (le_of_lt hp0) (le_trans h0 hB)
  unfold kappa eta
  linarith

/-! ### The floating-point operations on finite values -/

theorem fsub_some (F : FloatFormat) (x y : ℚ) : fsub F (some x) (some y) = F.round (x - y) := rfl

theorem fmul_some (F : FloatFormat) (x y : ℚ) : fmul F (some x) (some y) = F.round (x * y) := rfl

theorem fdiv_some (F : FloatFormat) (x : ℚ) {y : ℚ} (hy : y ≠ 0) :
    fdiv F (some x) (some y) = F.round (x / y) := by
  simp only [fdiv, if_neg hy]

/-- A `uint32_t` below `2 ^ 24` converts to `float` and to `double` exactly. -/
theorem ofUInt32_exact {F : FloatFormat} (hF : F = binary32 ∨ F = binary64) (n : Nat)
    (hn : n < 2 ^ 24) : ofUInt32 F n = some (n : ℚ) := by
  unfold ofUInt32
  rcases hF with rfl | rfl
  · exact round_natCast binary32 n hn (by decide) (by decide)
  · exact round_natCast binary64 n
      (lt_of_lt_of_le hn (Nat.pow_le_pow_right (by decide) (by decide))) (by decide) (by decide)

/-- Conversion of a non-negative value below `2 ^ 32` to `uint32_t`: defined, and
the result does not exceed the value. -/
theorem toUInt32_of_nonneg {q : ℚ} (h0 : 0 ≤ q) (h1 : q < 2 ^ 32) :
    ∃ k : Nat, toUInt32 (some q) = some k ∧ (k : ℚ) ≤ q := by
  have hU : ((U32 : Nat) : ℚ) = 2 ^ 32 := by norm_num [U32]
  refine ⟨Int.toNat (Int.floor q), ?_, ?_⟩
  · unfold toUInt32
    simp only
    rw [if_pos ⟨by linarith, by rw [hU]; exact h1⟩]
  · have hfl : (0 : Int) ≤ Int.floor q := Int.floor_nonneg.mpr h0
    have h2 : ((Int.toNat (Int.floor q) : Nat) : Int) = Int.floor q := Int.toNat_of_nonneg hfl
    have h3 : ((Int.toNat (Int.floor q) : Nat) : ℚ) = ((Int.floor q : Int) : ℚ) := by
      exact_mod_cast congrArg (fun z : Int => (z : ℚ)) h2
    rw [h3]
    exact Int.floor_le q

/-- The arithmetic behind one segment of `setupSpeeds`: from the rounding bounds of
the individual floating-point operations, the product stays below `2 ^ 32` and
the offset plus the interpolated value stays below `max_dev_speed + 1`. -/
theorem segment_arith {pa pb M d x1 x2 y1 y2 y3 y4 y5 : ℚ}
    (hpa : 0 ≤ pa) (hab : pa ≤ pb) (hpb : pb ≤ 100) (hM0 : 0 ≤ M) (hM : M ≤ 65535)
    (hd0 : 0 ≤ d) (hd : d ≤ 2 ^ 24)
    (hx1 : x1 ≤ pa / 100 * kappa + eta)
    (hx2 : x2 ≤ x1 * M * kappa + eta)
    (hy1 : y1 ≤ (pb - pa) * kappa + eta)
    (hy2 : y2 ≤ y1 / 100 * kappa + eta)
    (hy3 : d * y3 ≤ y2 * kappa + d * eta)
    (hy4 : y4 ≤ y3 * M * kappa + eta)
    (hy5 : y5 ≤ y4 * 65536 * kappa + eta) :
    d * y5 < 2 ^ 32 ∧ x2 + d * y5 / 65536 < M + 1 := by
  have hk : kappa = 16777217 / 16777216 := by norm_num [kappa]
  have he : eta = 1 / 1427247692705959881058285969449495136382746624 := by norm_num [eta]
  have hk0 : (0 : ℚ) ≤ kappa := by rw [hk]; norm_num
  have he0 : (0 : ℚ) ≤ eta := by rw [he]; norm_num
  -- products with `M`
  have hH : 0 ≤ M * pa := mul_nonneg hM0 hpa
  have hG : 0 ≤ M * (pb - pa) := mul_nonneg hM0 (by linarith)
  have hGH : M * (pb - pa) + M * pa ≤ 100 * M := by nlinarith
  have hMx1 : x1 * M ≤ (pa / 100 * kappa + eta) * M := mul_le_mul_of_nonneg_right hx1 hM0
  have hMy1 : y1 * M ≤ ((pb - pa) * kappa + eta) * M := mul_le_mul_of_nonneg_right hy1 hM0
  have hMy2 : y2 * M ≤ (y1 / 100 * kappa + eta) * M := mul_le_mul_of_nonneg_right hy2 hM0
  -- products with `d`
  have hdM : d * M ≤ 2 ^ 24 * M := mul_le_mul_of_nonneg_right hd hM0
  have hdy4 : d * y4 ≤ d * (y3 * M * kappa + eta) := mul_le_mul_of_nonneg_left hy4 hd0
  have hdy5 : d * y5 ≤ d * (y4 * 65536 * kappa + eta) := mul_le_mul_of_nonneg_left hy5 hd0
  have hdy3M : d * y3 * (M * kappa) ≤ (y2 * kappa + d * eta) * (M * kappa) :=
    mul_le_mul_of_nonneg_right hy3 (mul_nonneg hM0 hk0)
  -- everything in terms of `M * pa`, `M * (pb - pa)`, `M` and `d`
  have e1 : d * (y3 * M * kappa + eta) = d * y3 * (M * kappa) + d * eta := by ring
  have e2 : d * (y4 * 65536 * kappa + eta) = d * y4 * (65536 * kappa) + d * eta := by ring
  have e3 : (y2 * kappa + d * eta) * (M * kappa)
      = y2 * M * (kappa * kappa) + d * M * (eta * kappa) := by ring
  have e4 : (y1 / 100 * kappa + eta) * M = y1 * M * (kappa / 100) + eta * M := by ring
  have e5 : ((pb - pa) * kappa + eta) * M = M * (pb - pa) * kappa + eta * M := by ring
  have e6 : (pa / 100 * kappa + eta) * M = M * pa * (kappa / 100) + eta * M := by ring
  rw [e1] at hdy4
  rw [e2] at hdy5
  rw [e3] at hdy3M
  rw [e4] at hMy2
  rw [e5] at hMy1
  rw [e6] at hMx1
  have hx2' : x2 ≤ x1 * M * kappa + eta := hx2
  have f1 : d * y4 * (65536 * kappa) ≤ (d * y3 * (M * kappa) + d * eta) * (65536 * kappa) :=
    mul_le_mul_of_nonneg_right hdy4 (mul_nonneg (by norm_num) hk0)
  have f2 : y2 * M * (kappa * kappa) ≤ (y1 * M * (kappa / 100) + eta * M) * (kappa * kappa) :=
    mul_le_mul_of_nonneg_right hMy2 (mul_nonneg hk0 hk0)
  have f3 : y1 * M * (kappa / 100) ≤ (M * (pb - pa) * kappa + eta * M) * (kappa / 100) :=
    mul_le_mul_of_nonneg_right hMy1 (div_nonneg hk0 (by norm_num))
  have f4 : x1 * M * kappa ≤ (M * pa * (kappa / 100) + eta * M) * kappa :=
    mul_le_mul_of_nonneg_right hMx1 hk0
  rw [hk, he] at *
  constructor
  · linarith
  · linarith

/-- One segment of `setupSpeeds` on well-behaved input: for
`max_dev_speed < 2 ^ 16`, percents in `[0, 100]` that do not decrease, and speeds
below `2 ^ 24` that do not decrease, every conversion is defined, the offset is
at most `max_dev_speed`, and inside the segment the product with the scale
stays below `2 ^ 32` while offset plus interpolation stays at most
`max_dev_speed`. -/
theorem setupSegment_range (M : Nat) (a b : speedEntry) (hM : M < 2 ^ 16)
    (ha0 : 0 ≤ a.percent) (hab : a.percent ≤ b.percent) (hb : b.percent ≤ 100)
    (hs : a.speed ≤ b.speed) (hb24 : b.speed < 2 ^ 24) :
    ∃ s, setupSegment M a b = some s ∧ s.speed = a.speed ∧ s.offset ≤ M ∧
      ∀ d : Nat, a.speed + d < b.speed →
        d * s.scale < U32 ∧ s.offset + d * s.scale / 65536 ≤ M := by
  have hk : kappa = 16777217 / 16777216 := by norm_num [kappa]
  have he : eta = 1 / 1427247692705959881058285969449495136382746624 := by norm_num [eta]
  have hMq0 : (0 : ℚ) ≤ (M : ℚ) := Nat.cast_nonneg M
  have hMq : (M : ℚ) ≤ 65535 := by
    have : M ≤ 65535 := by omega
    exact_mod_cast this
  have hM24 : M < 2 ^ 24 := lt_of_lt_of_le hM (Nat.pow_le_pow_right (by decide) (by decide))
  -- the offset, in `double`
  obtain ⟨x1, hx1, hx1n, hx1b⟩ := round_bound binary64_fine
    (div_nonneg ha0 (by norm_num : (0 : ℚ) ≤ 100)) (le_refl (a.percent / 100))
    (by linarith : a.percent / 100 ≤ 2 ^ 100)
  have hx1le : x1 ≤ 2 := by have h := hx1b; rw [hk, he] at h; linarith
  obtain ⟨x2, hx2, hx2n, hx2b⟩ := round_bound binary64_fine
    (mul_nonneg hx1n hMq0) (le_refl (x1 * (M : ℚ)))
    (by nlinarith : x1 * (M : ℚ) ≤ 2 ^ 100)
  -- the scale, in `float`
  obtain ⟨y1, hy1, hy1n, hy1b⟩ := round_bound binary32_fine
    (by linarith : (0 : ℚ) ≤ b.percent - a.percent) (le_refl (b.percent - a.percent))
    (by linarith : b.percent - a.percent ≤ 2 ^ 100)
  have hy1le : y1 ≤ 101 := by have h := hy1b; rw [hk, he] at h; linarith
  obtain ⟨y2, hy2, hy2n, hy2b⟩ := round_bound binary32_fine
    (div_nonneg hy1n (by norm_num : (0 : ℚ) ≤ 100)) (le_refl (y1 / 100))
    (by linarith : y1 / 100 ≤ 2 ^ 100)
  have hy2le : y2 ≤ 2 := by have h := hy2b; rw [hk, he] at h; linarith
  have hsa : ofUInt32 binary32 a.speed = some (a.speed : ℚ) :=
    ofUInt32_exact (Or.inl rfl) a.speed (by omega)
  have hsb : ofUInt32 binary32 b.speed = some (b.speed : ℚ) :=
    ofUInt32_exact (Or.inl rfl) b.speed hb24
  have hdelta : fsub binary32 (ofUInt32 binary32 b.speed) (ofUInt32 binary32 a.speed)
      = some ((b.speed - a.speed : Nat) : ℚ) := by
    rw [hsa, hsb, fsub_some, ← Nat.cast_sub hs]
    exact round_natCast binary32 _ (by show b.speed - a.speed < 2 ^ 24; omega)
      (by decide) (by decide)
  -- the quotient, or zero for a segment of no width
  have hy3 : ∃ y3 : ℚ,
      (if fsub binary32 (ofUInt32 binary32 b.speed) (ofUInt32 binary32 a.speed) = some 0
        then some 0
        else fdiv binary32
          (fdiv binary32 (fsub binary32 (some b.percent) (some a.percent)) (some 100))
          (fsub binary32 (ofUInt32 binary32 b.speed) (ofUInt32 binary32 a.speed))) = some y3 ∧
      0 ≤ y3 ∧ y3 ≤ y2 * kappa + eta ∧
      ∀ d : Nat, a.speed + d < b.speed → (d : ℚ) * y3 ≤ y2 * kappa + (d : ℚ) * eta := by
    rw [hdelta]
    by_cases hdr : b.speed - a.speed = 0
    · refine ⟨0, ?_, le_refl _, ?_, ?_⟩
      · rw [hdr]; simp
      · rw [hk, he]; nlinarith
      · intro d hd; omega
    · have hdrq : (1 : ℚ) ≤ ((b.speed - a.speed : Nat) : ℚ) := by
        exact_mod_cast Nat.one_le_iff_ne_zero.mpr hdr
      have hdrne : ((b.speed - a.speed : Nat) : ℚ) ≠ 0 := by linarith
      have hne : ¬ (some ((b.speed - a.speed : Nat) : ℚ) = some 0) := by
        simpa using hdrne
      rw [if_neg hne, fsub_some, hy1, fdiv_some _ _ (by norm_num : (100 : ℚ) ≠ 0), hy2,
        fdiv_some _ _ hdrne]
      have hq0 : 0 ≤ y2 / ((b.speed - a.speed : Nat) : ℚ) := div_nonneg hy2n (by linarith)
      have hqle : y2 / ((b.speed - a.speed : Nat) : ℚ) ≤ y2 :=
        div_le_self hy2n hdrq
      obtain ⟨y3, hy3, hy3n, hy3b⟩ := round_bound binary32_fine hq0 (le_refl _)
        (by linarith : y2 / ((b.speed - a.speed : Nat) : ℚ) ≤ 2 ^ 100)
      refine ⟨y3, hy3, hy3n, ?_, ?_⟩
      · have : y2 / ((b.speed - a.speed : Nat) : ℚ) * kappa ≤ y2 * kappa :=
          mul_le_mul_of_nonneg_right hqle (by rw [hk]; norm_num)
        linarith
      · intro d hd
        have hdle : (d : ℚ) ≤ ((b.speed - a.speed : Nat) : ℚ) := by
          have : d ≤ b.speed - a.speed := by omega
          exact_mod_cast this
        have hd0 : (0 : ℚ) ≤ (d : ℚ) := Nat.cast_nonneg d
        have h1 : (d : ℚ) * y3 ≤ (d : ℚ) * (y2 / ((b.speed - a.speed : Nat) : ℚ) * kappa + eta) :=
          mul_le_mul_of_nonneg_left hy3b hd0
        have h2 : (d : ℚ) * (y2 / ((b.speed - a.speed : Nat) : ℚ))
            ≤ y2 := by
          rw [← mul_div_assoc, div_le_iff₀ (by linarith)]
          calc (d : ℚ) * y2 ≤ ((b.speed - a.speed : Nat) : ℚ) * y2 :=
                mul_le_mul_of_nonneg_right hdle hy2n
            _ = y2 * ((b.speed - a.speed : Nat) : ℚ) := by ring
        have h3 : (d : ℚ) * (y2 / ((b.speed - a.speed : Nat) : ℚ)) * kappa ≤ y2 * kappa :=
          mul_le_mul_of_nonneg_right h2 (by rw [hk]; norm_num)
        have e : (d : ℚ) * (y2 / ((b.speed - a.speed : Nat) : ℚ) * kappa + eta)
            = (d : ℚ) * (y2 / ((b.speed - a.speed : Nat) : ℚ)) * kappa + (d : ℚ) * eta := by ring
        rw [e] at h1
        linarith
  obtain ⟨y3, hy3, hy3n, hy3le, hy3d⟩ := hy3
  have hy3le2 : y3 ≤ 3 := by have h := hy3le; rw [hk, he] at h; linarith
  obtain ⟨y4, hy4, hy4n, hy4b⟩ := round_bound binary32_fine
    (mul_nonneg hy3n hMq0) (le_refl (y3 * (M : ℚ)))
    (by nlinarith : y3 * (M : ℚ) ≤ 2 ^ 100)
  have hy4le : y4 ≤ 2 ^ 20 := by
    have : y3 * (M : ℚ) ≤ 3 * 65535 := mul_le_mul hy3le2 hMq hMq0 (by norm_num)
    have h2 : y3 * (M : ℚ) * kappa ≤ 3 * 65535 * kappa :=
      mul_le_mul_of_nonneg_right this (by rw [hk]; norm_num)
    have h := hy4b
    rw [hk, he] at h
    rw [hk] at h2
    linarith
  obtain ⟨y5, hy5, hy5n, hy5b⟩ := round_bound binary32_fine
    (mul_nonneg hy4n (by norm_num : (0 : ℚ) ≤ 65536)) (le_refl (y4 * 65536))
    (by linarith : y4 * 65536 ≤ 2 ^ 100)
  -- the two bounds for a given distance `d`
  have key : ∀ d : ℚ, 0 ≤ d → d ≤ 2 ^ 24 → d * y3 ≤ y2 * kappa + d * eta →
      d * y5 < 2 ^ 32 ∧ x2 + d * y5 / 65536 < (M : ℚ) + 1 := fun d hd0 hd hd3 =>
    segment_arith ha0 hab hb hMq0 hMq hd0 hd hx1b hx2b hy1b hy2b hd3 hy4b hy5b
  have hkpos : (0 : ℚ) ≤ kappa := by rw [hk]; norm_num
  have key0 := key 0 (le_refl _) (by norm_num) (by
    rw [zero_mul, zero_mul, add_zero]; exact mul_nonneg hy2n hkpos)
  have key1 := key 1 (by norm_num) (by norm_num) (by linarith)
  -- the conversions
  obtain ⟨off, hoff, hoffle⟩ := toUInt32_of_nonneg hx2n (by
    have := key0.2
    linarith)
  obtain ⟨sc, hsc, hscle⟩ := toUInt32_of_nonneg hy5n (by linarith [key1.1])
  have hoffM : off ≤ M := by
    have h := key0.2
    have : (off : ℚ) < (M : ℚ) + 1 := by linarith
    have : off < M + 1 := by exact_mod_cast this
    omega
  refine ⟨{ a with offset := off, scale := sc }, ?_, rfl, hoffM, ?_⟩
  · unfold setupSegment
    rw [fdiv_some _ _ (by norm_num : (100 : ℚ) ≠ 0), hx1,
      ofUInt32_exact (Or.inr rfl) M hM24, fmul_some, hx2, hoff]
    simp only
    rw [hy3, ofUInt32_exact (Or.inl rfl) M hM24, fmul_some, hy4, fmul_some, hy5, hsc]
  · intro d hd
    have hd0 : (0 : ℚ) ≤ (d : ℚ) := Nat.cast_nonneg d
    have hd24 : (d : ℚ) ≤ 2 ^ 24 := by
      have : d ≤ 2 ^ 24 := by omega
      exact_mod_cast this
    obtain ⟨k1, k2⟩ := key d hd0 hd24 (hy3d d hd)
    have hprod : ((d * sc : Nat) : ℚ) ≤ (d : ℚ) * y5 := by
      push_cast
      exact mul_le_mul_of_nonneg_left hscle hd0
    constructor
    · have : ((d * sc : Nat) : ℚ) < ((2 ^ 32 : Nat) : ℚ) := by
        push_cast
        push_cast at hprod
        linarith
      have := Nat.cast_lt.mp this
      simpa [U32] using this
    · have h1 : ((d * sc / 65536 : Nat) : ℚ) ≤ ((d * sc : Nat) : ℚ) / 65536 := by
        have := @Nat.cast_div_le ℚ _ (d * sc) 65536
        simpa using this
      have h2 : ((d * sc : Nat) : ℚ) / 65536 ≤ (d : ℚ) * y5 / 65536 :=
        div_le_div_of_nonneg_right hprod (by norm_num)
      have h3 : ((off + d * sc / 65536 : Nat) : ℚ) < ((M + 1 : Nat) : ℚ) := by
        push_cast
        push_cast at h1 h2
        linarith
      have := Nat.cast_lt.mp h3
      show off + d * sc / 65536 ≤ M
      omega

/-! ### The loop of `setupSpeeds` -/

/-- With at least two entries `setupSpeeds` runs the loop. -/
theorem setupSpeeds_eq (M : Nat) (l : List speedEntry) (h : 2 ≤ l.length) :
    setupSpeeds M l = setupLoop M l := by
  unfold setupSpeeds
  rw [if_neg (by omega)]

/-- The loop at the final entry (lines 96-99). -/
theorem setupLoop_one (M : Nat) (a : speedEntry) :
    setupLoop M [a] = (setupLast M a).map (fun s => [s]) := rfl

/-- The loop at an entry that has a successor (lines 82-92). -/
theorem setupLoop_two (M : Nat) (a b : speedEntry) (rest : List speedEntry) :
    setupLoop M (a :: b :: rest) =
      (match setupSegment M a b with
       | none => none
       | some s => (setupLoop M (b :: rest)).map (fun t => s :: t)) := rfl

/-- The loop on the final entry. -/
theorem setupLoop_singleton {M : Nat} {a s : speedEntry} (hs : setupLast M a = some s) :
    setupLoop M [a] = some [s] := by
  rw [setupLoop_one, hs]
  rfl

/-- One iteration of the loop. -/
theorem setupLoop_cons_cons {M : Nat} {a b s : speedEntry} {rest t : List speedEntry}
    (hs : setupSegment M a b = some s) (ht : setupLoop M (b :: rest) = some t) :
    setupLoop M (a :: b :: rest) = some (s :: t) := by
  rw [setupLoop_two, hs]
  dsimp only
  rw [ht]
  rfl

/-- A completed loop with at least two entries: the first entry comes from the
loop body, the remaining ones from the rest of the loop. -/
theorem setupLoop_cons_cons_inv {M : Nat} {a b : speedEntry} {rest T : List speedEntry}
    (h : setupLoop M (a :: b :: rest) = some T) :
    ∃ s t, setupSegment M a b = some s ∧ setupLoop M (b :: rest) = some t ∧ T = s :: t := by
  rw [setupLoop_two] at h
  cases hs : setupSegment M a b with
  | none => rw [hs] at h; simp at h
  | some s =>
    rw [hs] at h
    dsimp only at h
    cases ht : setupLoop M (b :: rest) with
    | none => rw [ht] at h; simp at h
    | some t =>
      rw [ht] at h
      simp only [Option.map_some', Option.some.injEq] at h
      exact ⟨s, t, rfl, rfl, h.symm⟩

/-- A converted value is a 32-bit value. -/
theorem toUInt32_lt {v : Option ℚ} {k : Nat} (h : toUInt32 v = some k) : k < U32 := by
  cases v with
  | none => simp [toUInt32] at h
  | some q =>
    unfold toUInt32 at h
    dsimp only at h
    by_cases hq : -1 < q ∧ q < (U32 : ℚ)
    · rw [if_pos hq] at h
      simp only [Option.some.injEq] at h
      have hU : (U32 : ℚ) = ((4294967296 : Int) : ℚ) := by norm_num [U32]
      have hlt : Int.floor q < 4294967296 := Int.floor_lt.mpr (by rw [← hU]; exact hq.2)
      show k < 2 ^ 32
      omega
    · rw [if_neg hq] at h
      simp at h

/-- Conversion of zero. -/
theorem toUInt32_zero : toUInt32 (some 0) = some 0 := by
  unfold toUInt32
  dsimp only
  rw [if_pos ⟨by norm_num, by norm_num [U32]⟩]
  simp

/-- The final entry of `setupSpeeds` on well-behaved input: for
`max_dev_speed < 2 ^ 16` and a percent in `[0, 100]` the conversion is defined
and the offset is at most `max_dev_speed`. -/
theorem setupLast_range (M : Nat) (a : speedEntry) (hM : M < 2 ^ 16)
    (ha0 : 0 ≤ a.percent) (ha1 : a.percent ≤ 100) :
    ∃ s, setupLast M a = some s ∧ s.speed = a.speed ∧ s.offset ≤ M ∧ s.scale = 0 := by
  have hMq0 : (0 : ℚ) ≤ (M : ℚ) := Nat.cast_nonneg M
  have hMq : (M : ℚ) ≤ 65535 := by
    have : M ≤ 65535 := by omega
    exact_mod_cast this
  have hM24 : M < 2 ^ 24 := lt_of_lt_of_le hM (Nat.pow_le_pow_right (by decide) (by decide))
  obtain ⟨x1, hx1, hx1n, -⟩ := round_bound binary32_fine
    (div_nonneg ha0 (by norm_num : (0 : ℚ) ≤ 100)) (le_refl (a.percent / 100))
    (by linarith : a.percent / 100 ≤ 2 ^ 100)
  have hx1le : x1 ≤ ((1 : Nat) : ℚ) :=
    round_le_natCast 1 hx1 (by push_cast; linarith) (by decide) (by decide)
  have hx1le1 : x1 ≤ 1 := by exact_mod_cast hx1le
  have hprod : x1 * (M : ℚ) ≤ (M : ℚ) := by nlinarith
  obtain ⟨x2, hx2, hx2n, -⟩ := round_bound binary32_fine
    (mul_nonneg hx1n hMq0) (le_refl (x1 * (M : ℚ)))
    (by linarith : x1 * (M : ℚ) ≤ 2 ^ 100)
  have hx2le : x2 ≤ (M : ℚ) := round_le_natCast M hx2 hprod hM24 (by decide)
  obtain ⟨off, hoff, hoffle⟩ := toUInt32_of_nonneg hx2n (by linarith)
  refine ⟨{ a with offset := off, scale := 0 }, ?_, rfl, ?_, rfl⟩
  · unfold setupLast
    rw [fdiv_some _ _ (by norm_num : (100 : ℚ) ≠ 0), hx1,
      ofUInt32_exact (Or.inl rfl) M hM24, fmul_some, hx2, hoff]
  · have : (off : ℚ) ≤ (M : ℚ) := le_trans hoffle hx2le
    exact_mod_cast this

/-- The loop of `setupSpeeds` on well-behaved input: for `max_dev_speed < 2 ^ 16`
and points with percents in `[0, 100]` and speeds below `2 ^ 24`, both
non-decreasing, the loop completes, keeps the speeds, writes offsets of at most
`max_dev_speed`, and inside every segment the product with the scale stays
below `2 ^ 32` while offset plus interpolation stays at most `max_dev_speed`. -/
theorem setupLoop_range (M : Nat) (hM : M < 2 ^ 16) (l : List speedEntry) (hne : l ≠ [])
    (hpct : ∀ p ∈ l, 0 ≤ p.percent ∧ p.percent ≤ 100)
    (h24 : ∀ p ∈ l, p.speed < 2 ^ 24)
    (hpercents : (l.map speedEntry.percent).Sorted (· ≤ ·))
    (hspeeds : (l.map speedEntry.speed).Sorted (· ≤ ·)) :
    ∃ T, setupLoop M l = some T ∧ T.length = l.length ∧
      (T.getD 0 default).speed = (l.getD 0 default).speed ∧
      (∀ i, i < T.length → (T.getD i default).offset ≤ M) ∧
      (∀ i, i + 1 < T.length →
        ∀ d : Nat, (T.getD i default).speed + d < (T.getD (i + 1) default).speed →
          d * (T.getD i default).scale < U32 ∧
          (T.getD i default).offset + d * (T.getD i default).scale / 65536 ≤ M) := by
  induction l with
  | nil => exact absurd rfl hne
  | cons a t ih =>
    obtain ⟨ha0, ha1⟩ := hpct a (List.mem_cons_self _ _)
    cases t with
    | nil =>
      obtain ⟨s, hs, hsp, hoff, -⟩ := setupLast_range M a hM ha0 ha1
      refine ⟨[s], setupLoop_singleton hs, rfl, hsp, ?_, ?_⟩
      · intro i hi
        have : i = 0 := by simpa using hi
        subst this
        exact hoff
      · intro i hi
        simp at hi
    | cons b rest =>
      obtain ⟨hb0, hb1⟩ := hpct b (List.mem_cons_of_mem _ (List.mem_cons_self _ _))
      have hb24 := h24 b (List.mem_cons_of_mem _ (List.mem_cons_self _ _))
      rw [List.map_cons, List.sorted_cons] at hpercents hspeeds
      have hab : a.percent ≤ b.percent := hpercents.1 _ (by simp)
      have hsab : a.speed ≤ b.speed := hspeeds.1 _ (by simp)
      obtain ⟨T2, hT2, hlen2, hsp2, hoff2, hseg2⟩ := ih (List.cons_ne_nil _ _)
        (fun p hp => hpct p (List.mem_cons_of_mem _ hp))
        (fun p hp => h24 p (List.mem_cons_of_mem _ hp)) hpercents.2 hspeeds.2
      obtain ⟨s, hs, hsp, hoff, hseg⟩ := setupSegment_range M a b hM ha0 hab hb1 hsab hb24
      refine ⟨s :: T2, setupLoop_cons_cons hs hT2, by simp [hlen2], hsp, ?_, ?_⟩
      · intro i hi
        cases i with
        | zero => exact hoff
        | succ i =>
          rw [List.getD_cons_succ]
          exact hoff2 i (by simpa using hi)
      · intro i hi d hd
        cases i with
        | zero =>
          rw [List.getD_cons_succ, List.getD_cons_zero, hsp2, hsp] at hd
          rw [List.getD_cons_zero]
          exact hseg d hd
        | succ i =>
          rw [List.getD_cons_succ] at hd ⊢
          rw [List.getD_cons_succ] at hd
          exact hseg2 i (by simpa using hi) d hd

/-- Range of `deviceSpeed`: on a table whose offsets are at most `M` and whose
segments keep the product below `2 ^ 32` and the interpolated value at most
`M`, every value computed is at most `M`, and whenever the interpolation is
evaluated its entry starts at or below the speed and the product does not
wrap. -/
theorem deviceSpeed_le (T : List speedEntry) (M : Nat) (hM : M < U32) (hlen : 0 < T.length)
    (hoff : ∀ i, i < T.length → (T.getD i default).offset ≤ M)
    (hseg : ∀ i, i + 1 < T.length →
      ∀ d : Nat, (T.getD i default).speed + d < (T.getD (i + 1) default).speed →
        d * (T.getD i default).scale < U32 ∧
        (T.getD i default).offset + d * (T.getD i default).scale / 65536 ≤ M)
    (e : Nat) (he : e < U32) :
    deviceSpeed T e ≤ M ∧
    (¬ e < (T.getD 0 default).speed → e ≠ 0 →
      segmentScan T e (T.length - 1) 0 < T.length - 1 →
      (T.getD (segmentScan T e (T.length - 1) 0) default).speed ≤ e ∧
      (e - (T.getD (segmentScan T e (T.length - 1) 0) default).speed)
        * (T.getD (segmentScan T e (T.length - 1) 0) default).scale < U32) := by
  obtain ⟨-, hn, h3, -⟩ := segmentScan_spec T e (T.length - 1) 0
  have interp : ¬ e < (T.getD 0 default).speed → e ≠ 0 →
      segmentScan T e (T.length - 1) 0 < T.length - 1 →
      (T.getD (segmentScan T e (T.length - 1) 0) default).speed ≤ e ∧
      (e - (T.getD (segmentScan T e (T.length - 1) 0) default).speed)
        * (T.getD (segmentScan T e (T.length - 1) 0) default).scale < U32 ∧
      (T.getD (segmentScan T e (T.length - 1) 0) default).offset
        + (e - (T.getD (segmentScan T e (T.length - 1) 0) default).speed)
          * (T.getD (segmentScan T e (T.length - 1) 0) default).scale / 65536 ≤ M := by
    intro h1 _ hi
    have hle := segmentScan_speed_le T e h1
    have hlt := h3 (by omega)
    obtain ⟨hp, hq⟩ := hseg (segmentScan T e (T.length - 1) 0) (by omega)
      (e - (T.getD (segmentScan T e (T.length - 1) 0) default).speed) (by omega)
    exact ⟨hle, hp, hq⟩
  refine ⟨?_, fun h1 h0 hi => ⟨(interp h1 h0 hi).1, (interp h1 h0 hi).2.1⟩⟩
  by_cases hlow : e = 0 ∨ e < (T.getD 0 default).speed
  · rw [deviceSpeed_low _ _ hlow]
    exact hoff 0 hlen
  · have h1 : ¬ e < (T.getD 0 default).speed := fun h => hlow (Or.inr h)
    have h0 : e ≠ 0 := fun h => hlow (Or.inl h)
    by_cases hi : segmentScan T e (T.length - 1) 0 < T.length - 1
    · obtain ⟨hle, hp, hq⟩ := interp h1 h0 hi
      rw [deviceSpeed_scan T e h1 h0, if_pos hi, sub32_of_le hle he]
      unfold add32 mul32
      rw [Nat.mod_eq_of_lt hp, Nat.shiftRight_eq_div_pow, Nat.mod_eq_of_lt (by
        have : (2 : Nat) ^ 16 = 65536 := by norm_num
        rw [this]
        omega)]
      have : (2 : Nat) ^ 16 = 65536 := by norm_num
      rw [this]
      exact hq
    · rw [deviceSpeed_scan _ _ h1 h0, if_neg hi]
      exact hoff _ (by omega)

/-! ### The shelf table -/

/-- What a completed loop body of `setupSpeeds` has written: the speed is kept,
the offset is the converted `double` level, the scale the converted `float`
slope. -/
theorem setupSegment_inv {M : Nat} {a b s : speedEntry} (h : setupSegment M a b = some s) :
    s.speed = a.speed ∧
    toUInt32 (fmul binary64 (fdiv binary64 (some a.percent) (some 100))
      (ofUInt32 binary64 M)) = some s.offset ∧
    toUInt32 (fmul binary32
      (fmul binary32
        (if fsub binary32 (ofUInt32 binary32 b.speed) (ofUInt32 binary32 a.speed) = some 0
          then some 0
          else fdiv binary32
            (fdiv binary32 (fsub binary32 (some b.percent) (some a.percent)) (some 100))
            (fsub binary32 (ofUInt32 binary32 b.speed) (ofUInt32 binary32 a.speed)))
        (ofUInt32 binary32 M))
      (some 65536)) = some s.scale := by
  unfold setupSegment at h
  cases ho : toUInt32 (fmul binary64 (fdiv binary64 (some a.percent) (some 100))
      (ofUInt32 binary64 M)) with
  | none =>
    rw [ho] at h
    simp at h
  | some off =>
    rw [ho] at h
    dsimp only at h
    cases hs : toUInt32 (fmul binary32
        (fmul binary32
          (if fsub binary32 (ofUInt32 binary32 b.speed) (ofUInt32 binary32 a.speed) = some 0
            then some 0
            else fdiv binary32
              (fdiv binary32 (fsub binary32 (some b.percent) (some a.percent)) (some 100))
              (fsub binary32 (ofUInt32 binary32 b.speed) (ofUInt32 binary32 a.speed)))
          (ofUInt32 binary32 M))
        (some 65536)) with
    | none =>
      rw [hs] at h
      simp at h
    | some sc =>
      rw [hs] at h
      simp only [Option.some.injEq] at h
      subst h
      exact ⟨rfl, rfl, rfl⟩

/-- A product with a non-finite factor is not finite. -/
theorem fmul_none_left (F : FloatFormat) (b : Option ℚ) : fmul F none b = none := rfl

/-- A product with a non-finite factor is not finite. -/
theorem fmul_none_right (F : FloatFormat) (a : Option ℚ) : fmul F a none = none := by
  cases a <;> rfl

/-- A product with the factor zero is zero when the other factor is finite. -/
theorem fmul_zero_left (F : FloatFormat) (y : ℚ) : fmul F (some 0) (some y) = some 0 := by
  rw [fmul_some, zero_mul, round_zero]

/-- The quotient of zero by a non-zero value is zero. -/
theorem fdiv_zero_left (F : FloatFormat) {y : ℚ} (hy : y ≠ 0) :
    fdiv F (some 0) (some y) = some 0 := by
  rw [fdiv_some _ _ hy, zero_div, round_zero]

/-- The offset written for the percent 0 is 0. -/
theorem offset_of_zero_percent (M k : Nat)
    (h : toUInt32 (fmul binary64 (fdiv binary64 (some 0) (some 100)) (ofUInt32 binary64 M))
      = some k) : k = 0 := by
  rw [fdiv_zero_left _ (by norm_num : (100 : ℚ) ≠ 0)] at h
  cases hm : ofUInt32 binary64 M with
  | none =>
    rw [hm, fmul_none_right] at h
    simp [toUInt32] at h
  | some m =>
    rw [hm, fmul_zero_left, toUInt32_zero] at h
    simp only [Option.some.injEq] at h
    exact h.symm

/-- The scale written for a segment whose percent difference is zero is 0. -/
theorem scale_of_zero_delta (M k : Nat) (dRPM : Option ℚ)
    (h : toUInt32 (fmul binary32
      (fmul binary32 (if dRPM = some 0 then some 0 else fdiv binary32 (some 0) dRPM)
        (ofUInt32 binary32 M))
      (some 65536)) = some k) : k = 0 := by
  have inner : (if dRPM = some 0 then some 0 else fdiv binary32 (some 0) dRPM) = some 0 ∨
      (if dRPM = some 0 then some 0 else fdiv binary32 (some 0) dRPM) = none := by
    cases dRPM with
    | none =>
      right
      rw [if_neg (by simp)]
      rfl
    | some y =>
      left
      by_cases hy : y = 0
      · rw [if_pos (by rw [hy])]
      · rw [if_neg (by simpa using hy), fdiv_zero_left _ hy]
  rcases inner with h1 | h1
  · rw [h1] at h
    cases hm : ofUInt32 binary32 M with
    | none =>
      rw [hm, fmul_none_right, fmul_none_left] at h
      simp [toUInt32] at h
    | some m =>
      rw [hm, fmul_zero_left, fmul_zero_left, toUInt32_zero] at h
      simp only [Option.some.injEq] at h
      exact h.symm
  · rw [h1, fmul_none_left, fmul_none_left] at h
    simp [toUInt32] at h

/-- A segment of no width, or between two points of the same percent, is built
for every `max_dev_speed < 2 ^ 16` when its percent lies in `[0, 101]` and its
speeds are below `2 ^ 24`: the scale is zero whatever the percent. -/
theorem setupSegment_flat (M : Nat) (a b : speedEntry) (hM : M < 2 ^ 16)
    (ha0 : 0 ≤ a.percent) (ha1 : a.percent ≤ 101)
    (hs : a.speed ≤ b.speed) (hb24 : b.speed < 2 ^ 24)
    (hflat : a.speed = b.speed ∨ a.percent = b.percent) :
    ∃ s, setupSegment M a b = some s := by
  have hk : kappa = 16777217 / 16777216 := by norm_num [kappa]
  have he : eta = 1 / 1427247692705959881058285969449495136382746624 := by norm_num [eta]
  have hMq0 : (0 : ℚ) ≤ (M : ℚ) := Nat.cast_nonneg M
  have hMq : (M : ℚ) ≤ 65535 := by
    have : M ≤ 65535 := by omega
    exact_mod_cast this
  have hM24 : M < 2 ^ 24 := lt_of_lt_of_le hM (Nat.pow_le_pow_right (by decide) (by decide))
  -- the offset, in `double`
  obtain ⟨x1, hx1, hx1n, hx1b⟩ := round_bound binary64_fine
    (div_nonneg ha0 (by norm_num : (0 : ℚ) ≤ 100)) (le_refl (a.percent / 100))
    (by linarith : a.percent / 100 ≤ 2 ^ 100)
  have hx1le : x1 ≤ 2 := by
    have h := hx1b
    rw [hk, he] at h
    linarith
  obtain ⟨x2, hx2, hx2n, hx2b⟩ := round_bound binary64_fine
    (mul_nonneg hx1n hMq0) (le_refl (x1 * (M : ℚ)))
    (by nlinarith : x1 * (M : ℚ) ≤ 2 ^ 100)
  have hx2lt : x2 < 2 ^ 32 := by
    have h1 : x1 * (M : ℚ) ≤ 2 * 65535 := mul_le_mul hx1le hMq hMq0 (by norm_num)
    have h2 : x1 * (M : ℚ) * kappa ≤ 2 * 65535 * kappa :=
      mul_le_mul_of_nonneg_right h1 (by rw [hk]; norm_num)
    have h := hx2b
    rw [hk, he] at h
    rw [hk] at h2
    linarith
  obtain ⟨off, hoff, -⟩ := toUInt32_of_nonneg hx2n hx2lt
  -- the slope is zero
  have hsa : ofUInt32 binary32 a.speed = some (a.speed : ℚ) :=
    ofUInt32_exact (Or.inl rfl) a.speed (by omega)
  have hsb : ofUInt32 binary32 b.speed = some (b.speed : ℚ) :=
    ofUInt32_exact (Or.inl rfl) b.speed hb24
  have hdelta : fsub binary32 (ofUInt32 binary32 b.speed) (ofUInt32 binary32 a.speed)
      = some ((b.speed - a.speed : Nat) : ℚ) := by
    rw [hsa, hsb, fsub_some, ← Nat.cast_sub hs]
    exact round_natCast binary32 _ (by show b.speed - a.speed < 2 ^ 24; omega)
      (by decide) (by decide)
  have hinner :
      (if fsub binary32 (ofUInt32 binary32 b.speed) (ofUInt32 binary32 a.speed) = some 0
        then some 0
        else fdiv binary32
          (fdiv binary32 (fsub binary32 (some b.percent) (some a.percent)) (some 100))
          (fsub binary32 (ofUInt32 binary32 b.speed) (ofUInt32 binary32 a.speed)))
        = some 0 := by
    rw [hdelta]
    by_cases hdr : b.speed - a.speed = 0
    · rw [hdr]
      simp
    · have hdrne : ((b.speed - a.speed : Nat) : ℚ) ≠ 0 := by exact_mod_cast hdr
      have hp : a.percent = b.percent := by
        rcases hflat with h | h
        · exact absurd (by omega : b.speed - a.speed = 0) hdr
        · exact h
      rw [if_neg (by simpa using hdrne), fsub_some, hp, sub_self, round_zero,
        fdiv_zero_left _ (by norm_num : (100 : ℚ) ≠ 0), fdiv_zero_left _ hdrne]
  refine ⟨{ a with offset := off, scale := 0 }, ?_⟩
  unfold setupSegment
  rw [fdiv_some _ _ (by norm_num : (100 : ℚ) ≠ 0), hx1,
    ofUInt32_exact (Or.inr rfl) M hM24, fmul_some, hx2, hoff]
  simp only
  rw [hinner, ofUInt32_exact (Or.inl rfl) M hM24, fmul_zero_left, fmul_zero_left, toUInt32_zero]

/-- The value `minPercent = 100.0f * min / max` of `shelfSpeeds` for
`0 < min ≤ max < 2 ^ 24`: it is finite, lies in `[0, 101]`, and is at most 100
when `min < max`. -/
theorem minPercent_range (min max : Nat) (hmin : 0 < min) (hle : min ≤ max)
    (hmax : max < 2 ^ 24) :
    ∃ P : ℚ,
      fdiv binary32 (fmul binary32 (some 100) (ofUInt32 binary32 min)) (ofUInt32 binary32 max)
        = some P ∧
      0 ≤ P ∧ P ≤ 101 ∧ (min < max → P ≤ 100) := by
  have hk : kappa = 16777217 / 16777216 := by norm_num [kappa]
  have he : eta = 1 / 1427247692705959881058285969449495136382746624 := by norm_num [eta]
  have hminq : (1 : ℚ) ≤ (min : ℚ) := by exact_mod_cast hmin
  have hleq : (min : ℚ) ≤ (max : ℚ) := by exact_mod_cast hle
  have hmaxq : (max : ℚ) ≤ 16777215 := by
    have : max ≤ 16777215 := by omega
    exact_mod_cast this
  have hmaxpos : (0 : ℚ) < (max : ℚ) := by linarith
  obtain ⟨r1, hr1, hr1n, hr1b⟩ := round_bound binary32_fine
    (by linarith : (0 : ℚ) ≤ 100 * (min : ℚ)) (le_refl (100 * (min : ℚ)))
    (by linarith : 100 * (min : ℚ) ≤ 2 ^ 100)
  have hr1b2 := hr1b
  rw [hk, he] at hr1b2
  have hq0 : 0 ≤ r1 / (max : ℚ) := div_nonneg hr1n (le_of_lt hmaxpos)
  have hq1 : r1 / (max : ℚ) ≤ 101 := by
    rw [div_le_iff₀ hmaxpos]
    linarith
  obtain ⟨P, hP, hPn, hPb⟩ := round_bound binary32_fine hq0 (le_refl (r1 / (max : ℚ)))
    (by linarith : r1 / (max : ℚ) ≤ 2 ^ 100)
  have hPle : P ≤ ((101 : Nat) : ℚ) :=
    round_le_natCast 101 hP (by push_cast; exact hq1) (by decide) (by decide)
  refine ⟨P, ?_, hPn, by exact_mod_cast hPle, ?_⟩
  · rw [ofUInt32_exact (Or.inl rfl) min (by omega), ofUInt32_exact (Or.inl rfl) max hmax,
      fmul_some, hr1, fdiv_some _ _ (ne_of_gt hmaxpos), hP]
  · intro hlt
    have hltq : (min : ℚ) + 1 ≤ (max : ℚ) := by exact_mod_cast hlt
    have hq2 : r1 / (max : ℚ) ≤ ((100 : Nat) : ℚ) := by
      rw [div_le_iff₀ hmaxpos]
      push_cast
      linarith
    have := round_le_natCast 100 hP hq2 (by decide) (by decide)
    exact_mod_cast this

/-- The points `shelfSpeeds(min, max)` leaves for `min ≠ 0`, from the value of
`minPercent`. -/
theorem shelfSpeeds_points {min max : Nat} {P : ℚ} (hmin : min ≠ 0)
    (hP : fdiv binary32 (fmul binary32 (some 100) (ofUInt32 binary32 min))
      (ofUInt32 binary32 max) = some P) :
    shelfSpeeds min max = some [mkEntry 0 0, mkEntry 0 P, mkEntry min P, mkEntry max 100] := by
  unfold shelfSpeeds
  rw [hP]
  simp only [if_pos hmin]
  rfl

/-- The table of the specification's scenario, as built by `setupSpeeds(1000)`. -/
theorem setupSpeeds_scenario :
    setupSpeeds 1000 [mkEntry 0 0, mkEntry 0 20, mkEntry 1000 20, mkEntry 10000 100]
      = some scenarioTable := by
  have h0 : fdiv binary64 (some 0) (some 100) = some 0 := by decide!
  have h1 : ofUInt32 binary64 1000 = some 1000 := by decide!
  have h2 : fmul binary64 (some 0) (some 1000) = some 0 := by decide!
  have h3 : toUInt32 (some 0) = some 0 := by decide!
  have h4 : ofUInt32 binary32 0 = some 0 := by decide!
  have h5 : fsub binary32 (some 0) (some 0) = some 0 := by decide!
  have h6 : ofUInt32 binary32 1000 = some 1000 := by decide!
  have h7 : fmul binary32 (some 0) (some 1000) = some 0 := by decide!
  have h8 : fmul binary32 (some 0) (some 65536) = some 0 := by decide!
  have h9 : fdiv binary64 (some 20) (some 100)
      = some (3602879701896397 / 18014398509481984) := by decide!
  have h10 : fmul binary64 (some (3602879701896397 / 18014398509481984)) (some 1000)
      = some 200 := by decide!
  have h11 : toUInt32 (some 200) = some 200 := by decide!
  have h12 : fsub binary32 (some 1000) (some 0) = some 1000 := by decide!
  have h13 : ¬ ((some 1000 : Option ℚ) = some 0) := by decide!
  have h14 : fsub binary32 (some 20) (some 20) = some 0 := by decide!
  have h15 : fdiv binary32 (some 0) (some 100) = some 0 := by decide!
  have h16 : fdiv binary32 (some 0) (some 1000) = some 0 := by decide!
  have h17 : ofUInt32 binary32 10000 = some 10000 := by decide!
  have h18 : fsub binary32 (some 10000) (some 1000) = some 9000 := by decide!
  have h19 : ¬ ((some 9000 : Option ℚ) = some 0) := by decide!
  have h20 : fsub binary32 (some 100) (some 20) = some 80 := by decide!
  have h21 : fdiv binary32 (some 80) (some 100) = some (13421773 / 16777216) := by decide!
  have h22 : fdiv binary32 (some (13421773 / 16777216)) (some 9000)
      = some (3054199 / 34359738368) := by decide!
  have h23 : fmul binary32 (some (3054199 / 34359738368)) (some 1000)
      = some (11930465 / 134217728) := by decide!
  have h24 : fmul binary32 (some (11930465 / 134217728)) (some 65536)
      = some (11930465 / 2048) := by decide!
  have h25 : toUInt32 (some (11930465 / 2048)) = some 5825 := by decide!
  have h26 : fdiv binary32 (some 100) (some 100) = some 1 := by decide!
  have h27 : fmul binary32 (some 1) (some 1000) = some 1000 := by decide!
  have h28 : toUInt32 (some 1000) = some 1000 := by decide!
  have s0 : setupSegment 1000 (mkEntry 0 0) (mkEntry 0 20)
      = some ⟨0, 0, 0, 0⟩ := by
    unfold setupSegment
    dsimp only [mkEntry]
    simp only [h0, h1, h2, h3, h4, h5, h6, h7, h8, h9, h10, h11, h12, h13, h14, h15, h16, h17,
      h18, h19, h20, h21, h22, h23, h24, h25, h26, h27, h28, if_true, if_false, eq_self]
  have s1 : setupSegment 1000 (mkEntry 0 20) (mkEntry 1000 20)
      = some ⟨0, 20, 200, 0⟩ := by
    unfold setupSegment
    dsimp only [mkEntry]
    simp only [h0, h1, h2, h3, h4, h5, h6, h7, h8, h9, h10, h11, h12, h13, h14, h15, h16, h17,
      h18, h19, h20, h21, h22, h23, h24, h25, h26, h27, h28, if_true, if_false, eq_self]
  have s2 : setupSegment 1000 (mkEntry 1000 20) (mkEntry 10000 100)
      = some ⟨1000, 20, 200, 5825⟩ := by
    unfold setupSegment
    dsimp only [mkEntry]
    simp only [h0, h1, h2, h3, h4, h5, h6, h7, h8, h9, h10, h11, h12, h13, h14, h15, h16, h17,
      h18, h19, h20, h21, h22, h23, h24, h25, h26, h27, h28, if_true, if_false, eq_self]
  have sl : setupLast 1000 (mkEntry 10000 100) = some ⟨10000, 100, 1000, 0⟩ := by
    unfold setupLast
    dsimp only [mkEntry]
    simp only [h0, h1, h2, h3, h4, h5, h6, h7, h8, h9, h10, h11, h12, h13, h14, h15, h16, h17,
      h18, h19, h20, h21, h22, h23, h24, h25, h26, h27, h28]
  rw [setupSpeeds_eq _ _ (by decide)]
  exact setupLoop_cons_cons s0 (setupLoop_cons_cons s1 (setupLoop_cons_cons s2
    (setupLoop_singleton sl)))

/-- The two-point table `(0 %, 0), (100 %, 1000)` as built by `setupSpeeds(1000)`. -/
theorem setupSpeeds_two_points :
    setupSpeeds 1000 [mkEntry 0 0, mkEntry 1000 100]
      = some [⟨0, 0, 0, 65536⟩, ⟨1000, 100, 1000, 0⟩] := by
  have h0 : fdiv binary64 (some 0) (some 100) = some 0 := by decide!
  have h1 : ofUInt32 binary64 1000 = some 1000 := by decide!
  have h2 : fmul binary64 (some 0) (some 1000) = some 0 := by decide!
  have h3 : toUInt32 (some 0) = some 0 := by decide!
  have h4 : ofUInt32 binary32 1000 = some 1000 := by decide!
  have h5 : ofUInt32 binary32 0 = some 0 := by decide!
  have h6 : fsub binary32 (some 1000) (some 0) = some 1000 := by decide!
  have h7 : ¬ ((some 1000 : Option ℚ) = some 0) := by decide!
  have h8 : fsub binary32 (some 100) (some 0) = some 100 := by decide!
  have h9 : fdiv binary32 (some 100) (some 100) = some 1 := by decide!
  have h10 : fdiv binary32 (some 1) (some 1000) = some (8589935 / 8589934592) := by decide!
  have h11 : fmul binary32 (some (8589935 / 8589934592)) (some 1000) = some 1 := by decide!
  have h12 : fmul binary32 (some 1) (some 65536) = some 65536 := by decide!
  have h13 : toUInt32 (some 65536) = some 65536 := by decide!
  have h14 : fmul binary32 (some 1) (some 1000) = some 1000 := by decide!
  have h15 : toUInt32 (some 1000) = some 1000 := by decide!
  have s0 : setupSegment 1000 (mkEntry 0 0) (mkEntry 1000 100)
      = some ⟨0, 0, 0, 65536⟩ := by
    unfold setupSegment
    dsimp only [mkEntry]
    simp only [h0, h1, h2, h3, h4, h5, h6, h7, h8, h9, h10, h11, h12, h13, h14, h15, if_true,
      if_false, eq_self]
  have sl : setupLast 1000 (mkEntry 1000 100) = some ⟨1000, 100, 1000, 0⟩ := by
    unfold setupLast
    dsimp only [mkEntry]
    simp only [h0, h1, h2, h3, h4, h5, h6, h7, h8, h9, h10, h11, h12, h13, h14, h15]
  rw [setupSpeeds_eq _ _ (by decide)]
  exact setupLoop_cons_cons s0 (setupLoop_singleton sl)

/-- The table `(0 %, 33554438), (100 %, 33554450)` as built by `setupSpeeds(1000)`: the
speeds convert to the `float` values 33554440 and 33554448, so the slope is that
of a segment of width 8, not 12. -/
theorem setupSpeeds_large_speeds :
    setupSpeeds 1000 [mkEntry 33554438 0, mkEntry 33554450 100]
      = some [⟨33554438, 0, 0, 8192000⟩, ⟨33554450, 100, 1000, 0⟩] := by
  have h0 : fdiv binary64 (some 0) (some 100) = some 0 := by decide!
  have h1 : ofUInt32 binary64 1000 = some 1000 := by decide!
  have h2 : fmul binary64 (some 0) (some 1000) = some 0 := by decide!
  have h3 : toUInt32 (some 0) = some 0 := by decide!
  have h4 : ofUInt32 binary32 33554450 = some 33554448 := by decide!
  have h5 : ofUInt32 binary32 33554438 = some 33554440 := by decide!
  have h6 : fsub binary32 (some 33554448) (some 33554440) = some 8 := by decide!
  have h7 : ¬ ((some 8 : Option ℚ) = some 0) := by decide!
  have h8 : fsub binary32 (some 100) (some 0) = some 100 := by decide!
  have h9 : fdiv binary32 (some 100) (some 100) = some 1 := by decide!
  have h10 : fdiv binary32 (some 1) (some 8) = some (1 / 8) := by decide!
  have h11 : ofUInt32 binary32 1000 = some 1000 := by decide!
  have h12 : fmul binary32 (some (1 / 8)) (some 1000) = some 125 := by decide!
  have h13 : fmul binary32 (some 125) (some 65536) = some 8192000 := by decide!
  have h14 : toUInt32 (some 8192000) = some 8192000 := by decide!
  have h15 : fmul binary32 (some 1) (some 1000) = some 1000 := by decide!
  have h16 : toUInt32 (some 1000) = some 1000 := by decide!
  have s0 : setupSegment 1000 (mkEntry 33554438 0) (mkEntry 33554450 100)
      = some ⟨33554438, 0, 0, 8192000⟩ := by
    unfold setupSegment
    dsimp only [mkEntry]
    simp only [h0, h1, h2, h3, h4, h5, h6, h7, h8, h9, h10, h11, h12, h13, h14, h15, h16, if_true,
      if_false, eq_self]
  have sl : setupLast 1000 (mkEntry 33554450 100) = some ⟨33554450, 100, 1000, 0⟩ := by
    unfold setupLast
    dsimp only [mkEntry]
    simp only [h0, h1, h2, h3, h4, h5, h6, h7, h8, h9, h10, h11, h12, h13, h14, h15, h16]
  rw [setupSpeeds_eq _ _ (by decide)]
  exact setupLoop_cons_cons s0 (setupLoop_singleton sl)

/-- The points left by `shelfSpeeds(1000, 10000)`. -/
theorem shelfSpeeds_1000_10000 :
    shelfSpeeds 1000 10000
      = some [mkEntry 0 0, mkEntry 0 10, mkEntry 1000 10, mkEntry 10000 100] := by
  have h0 : ofUInt32 binary32 1000 = some 1000 := by decide!
  have h1 : fmul binary32 (some 100) (some 1000) = some 100000 := by decide!
  have h2 : ofUInt32 binary32 10000 = some 10000 := by decide!
  have h3 : fdiv binary32 (some 100000) (some 10000) = some 10 := by decide!
  unfold shelfSpeeds
  simp only [h0, h1, h2, h3]
  rfl

/-- The table left by `shelfSpeeds(1000, 10000)` and `setupSpeeds(1000)`. -/
theorem setupSpeeds_shelf_1000_10000 :
    setupSpeeds 1000 [mkEntry 0 0, mkEntry 0 10, mkEntry 1000 10, mkEntry 10000 100]
      = some [⟨0, 0, 0, 0⟩, ⟨0, 10, 100, 0⟩, ⟨1000, 10, 100, 6553⟩, ⟨10000, 100, 1000, 0⟩] := by
  have h0 : fdiv binary64 (some 0) (some 100) = some 0 := by decide!
  have h1 : ofUInt32 binary64 1000 = some 1000 := by decide!
  have h2 : fmul binary64 (some 0) (some 1000) = some 0 := by decide!
  have h3 : toUInt32 (some 0) = some 0 := by decide!
  have h4 : ofUInt32 binary32 0 = some 0 := by decide!
  have h5 : fsub binary32 (some 0) (some 0) = some 0 := by decide!
  have h6 : ofUInt32 binary32 1000 = some 1000 := by decide!
  have h7 : fmul binary32 (some 0) (some 1000) = some 0 := by decide!
  have h8 : fmul binary32 (some 0) (some 65536) = some 0 := by decide!
  have h9 : fdiv binary64 (some 10) (some 100)
      = some (3602879701896397 / 36028797018963968) := by decide!
  have h10 : fmul binary64 (some (3602879701896397 / 36028797018963968)) (some 1000)
      = some 100 := by decide!
  have h11 : toUInt32 (some 100) = some 100 := by decide!
  have h12 : fsub binary32 (some 1000) (some 0) = some 1000 := by decide!
  have h13 : ¬ ((some 1000 : Option ℚ) = some 0) := by decide!
  have h14 : fsub binary32 (some 10) (some 10) = some 0 := by decide!
  have h15 : fdiv binary32 (some 0) (some 100) = some 0 := by decide!
  have h16 : fdiv binary32 (some 0) (some 1000) = some 0 := by decide!
  have h17 : ofUInt32 binary32 10000 = some 10000 := by decide!
  have h18 : fsub binary32 (some 10000) (some 1000) = some 9000 := by decide!
  have h19 : ¬ ((some 9000 : Option ℚ) = some 0) := by decide!
  have h20 : fsub binary32 (some 100) (some 10) = some 90 := by decide!
  have h21 : fdiv binary32 (some 90) (some 100) = some (7549747 / 8388608) := by decide!
  have h22 : fdiv binary32 (some (7549747 / 8388608)) (some 9000)
      = some (13743895 / 137438953472) := by decide!
  have h23 : fmul binary32 (some (13743895 / 137438953472)) (some 1000)
      = some (3355443 / 33554432) := by decide!
  have h24 : fmul binary32 (some (3355443 / 33554432)) (some 65536)
      = some (3355443 / 512) := by decide!
  have h25 : toUInt32 (some (3355443 / 512)) = some 6553 := by decide!
  have h26 : fdiv binary32 (some 100) (some 100) = some 1 := by decide!
  have h27 : fmul binary32 (some 1) (some 1000) = some 1000 := by decide!
  have h28 : toUInt32 (some 1000) = some 1000 := by decide!
  have s0 : setupSegment 1000 (mkEntry 0 0) (mkEntry 0 10)
      = some ⟨0, 0, 0, 0⟩ := by
    unfold setupSegment
    dsimp only [mkEntry]
    simp only [h0, h1, h2, h3, h4, h5, h6, h7, h8, h9, h10, h11, h12, h13, h14, h15, h16, h17,
      h18, h19, h20, h21, h22, h23, h24, h25, h26, h27, h28, if_true, if_false, eq_self]
  have s1 : setupSegment 1000 (mkEntry 0 10) (mkEntry 1000 10)
      = some ⟨0, 10, 100, 0⟩ := by
    unfold setupSegment
    dsimp only [mkEntry]
    simp only [h0, h1, h2, h3, h4, h5, h6, h7, h8, h9, h10, h11, h12, h13, h14, h15, h16, h17,
      h18, h19, h20, h21, h22, h23, h24, h25, h26, h27, h28, if_true, if_false, eq_self]
  have s2 : setupSegment 1000 (mkEntry 1000 10) (mkEntry 10000 100)
      = some ⟨1000, 10, 100, 6553⟩ := by
    unfold setupSegment
    dsimp only [mkEntry]
    simp only [h0, h1, h2, h3, h4, h5, h6, h7, h8, h9, h10, h11, h12, h13, h14, h15, h16, h17,
      h18, h19, h20, h21, h22, h23, h24, h25, h26, h27, h28, if_true, if_false, eq_self]
  have sl : setupLast 1000 (mkEntry 10000 100) = some ⟨10000, 100, 1000, 0⟩ := by
    unfold setupLast
    dsimp only [mkEntry]
    simp only [h0, h1, h2, h3, h4, h5, h6, h7, h8, h9, h10, h11, h12, h13, h14, h15, h16, h17,
      h18, h19, h20, h21, h22, h23, h24, h25, h26, h27, h28]
  rw [setupSpeeds_eq _ _ (by decide)]
  exact setupLoop_cons_cons s0 (setupLoop_cons_cons s1 (setupLoop_cons_cons s2
    (setupLoop_singleton sl)))

/-- The shelf of `shelfSpeeds(4000, 12000)` under `setupSpeeds(255)`: `minPercent` is
the `float` nearest to `100 / 3`, a little below it, and the level
`minPercent / 100.0 * 255` truncates to 84. -/
theorem shelf_level_4000_12000 :
    fdiv binary32 (fmul binary32 (some 100) (ofUInt32 binary32 4000))
        (ofUInt32 binary32 12000)
      = some (8738133 / 262144) ∧
    toUInt32 (fmul binary64 (fdiv binary64 (some (8738133 / 262144)) (some 100))
        (ofUInt32 binary64 255))
      = some 84 := by
  have h0 : ofUInt32 binary32 4000 = some 4000 := by decide!
  have h1 : fmul binary32 (some 100) (some 4000) = some 400000 := by decide!
  have h2 : ofUInt32 binary32 12000 = some 12000 := by decide!
  have h3 : fdiv binary32 (some 400000) (some 12000) = some (8738133 / 262144) := by decide!
  have h4 : fdiv binary64 (some (8738133 / 262144)) (some 100)
      = some (6004799274095739 / 18014398509481984) := by decide!
  have h5 : ofUInt32 binary64 255 = some 255 := by decide!
  have h6 : fmul binary64 (some (6004799274095739 / 18014398509481984)) (some 255)
      = some (5981343026931303 / 70368744177664) := by decide!
  have h7 : toUInt32 (some (5981343026931303 / 70368744177664)) = some 84 := by decide!
  constructor
  · simp only [h0, h1, h2, h3, h4, h5, h6, h7]
  · simp only [h0, h1, h2, h3, h4, h5, h6, h7]

/-- C7: `mapSpeed` equals the piecewise reference.  For every non-empty table with
non-decreasing speeds and `e = speed * sys.spindle_speed_ovr / 100` (the product
taken in 32-bit unsigned arithmetic), the call returns a value `r` and records
`e` in `sys.spindle_speed`, where: `r = speeds[0].offset` when `e = 0` or
`e < speeds[0].speed`; `r` is the last entry's offset when `e` is not zero and
at or above the highest configured speed; and when `e` is neither zero nor
below `speeds[0].speed`, with `i` the smallest index such that
`e < speeds[i + 1].speed`, entry `i` starts at or below `e` and
`r = speeds[i].offset + (((e - speeds[i].speed) * speeds[i].scale) >> 16)` in
32-bit unsigned arithmetic.  One of the three cases always applies.  The points
`(0 %, 0), (20 %, 0), (20 %, 1000), (100 %, 10000)` are built by
`setupSpeeds(1000)` into the table with offsets 0, 200, 200, 1000 and scales
0, 0, 5825, 0; on it `mapSpeed(500)` at 100 % override is 200, and
`mapSpeed(4000)` at 50 % override is 288 with recorded speed 2000. -/
theorem mapSpeed_piecewise :
    (∀ (speeds : List speedEntry) (sys : system_t) (speed e : Nat),
      speeds ≠ [] → (speeds.map speedEntry.speed).Sorted (· ≤ ·) →
      e = (speed * sys.spindle_speed_ovr) % 2 ^ 32 / 100 →
      ∃ r : Nat,
        mapSpeed speeds sys speed = some (r, { sys with spindle_speed := e }) ∧
        (e = 0 ∨ e < (speeds.getD 0 default).speed → r = (speeds.getD 0 default).offset) ∧
        (e ≠ 0 → (speeds.getD (speeds.length - 1) default).speed ≤ e →
          r = (speeds.getD (speeds.length - 1) default).offset) ∧
        (∀ i : Nat,
          ¬ (e = 0 ∨ e < (speeds.getD 0 default).speed) →
          i + 1 < speeds.length →
          e < (speeds.getD (i + 1) default).speed →
          (∀ j, j < i → ¬ e < (speeds.getD (j + 1) default).speed) →
          (speeds.getD i default).speed ≤ e ∧
          r = add32 (speeds.getD i default).offset
                (mul32 (e - (speeds.getD i default).speed)
                  (speeds.getD i default).scale >>> 16)) ∧
        ((e = 0 ∨ e < (speeds.getD 0 default).speed) ∨
          (e ≠ 0 ∧ (speeds.getD (speeds.length - 1) default).speed ≤ e) ∨
          ∃ i : Nat, i + 1 < speeds.length ∧ e < (speeds.getD (i + 1) default).speed ∧
            ∀ j, j < i → ¬ e < (speeds.getD (j + 1) default).speed)) ∧
    setupSpeeds 1000 [mkEntry 0 0, mkEntry 0 20, mkEntry 1000 20, mkEntry 10000 100]
      = some [⟨0, 0, 0, 0⟩, ⟨0, 20, 200, 0⟩, ⟨1000, 20, 200, 5825⟩, ⟨10000, 100, 1000, 0⟩] ∧
    mapSpeed [⟨0, 0, 0, 0⟩, ⟨0, 20, 200, 0⟩, ⟨1000, 20, 200, 5825⟩, ⟨10000, 100, 1000, 0⟩]
      ⟨100, 0⟩ 500 = some (200, ⟨100, 500⟩) ∧
    mapSpeed [⟨0, 0, 0, 0⟩, ⟨0, 20, 200, 0⟩, ⟨1000, 20, 200, 5825⟩, ⟨10000, 100, 1000, 0⟩]
      ⟨50, 0⟩ 4000 = some (288, ⟨50, 2000⟩) := by
  refine ⟨?_, setupSpeeds_scenario, by decide, by decide⟩
  intro speeds sys speed e hne hsorted he
  have hE : effectiveSpeed sys speed = e := by
    rw [he]
    rfl
  have heU : e < U32 := by
    rw [← hE]
    exact effectiveSpeed_lt sys speed
  obtain ⟨first, rest, rfl⟩ := List.exists_cons_of_ne_nil hne
  have hlen : (first :: rest).length - 1 < (first :: rest).length := by simp
  obtain ⟨-, h2, h3, h4⟩ := segmentScan_spec (first :: rest) e ((first :: rest).length - 1) 0
  refine ⟨deviceSpeed (first :: rest) e, ?_, ?_, ?_, ?_, ?_⟩
  · simp only [mapSpeed, hE]
  · exact deviceSpeed_low _ _
  · intro h0 hlast
    have h1 : ¬ e < ((first :: rest).getD 0 default).speed := by
      have := speed_le_of_sorted hsorted (Nat.zero_le _) hlen
      omega
    rw [deviceSpeed_scan _ _ h1 h0]
    by_cases hs : segmentScan (first :: rest) e ((first :: rest).length - 1) 0
        < (first :: rest).length - 1
    · exfalso
      have hlt := h3 (by omega)
      have := speed_le_of_sorted hsorted
        (i := segmentScan (first :: rest) e ((first :: rest).length - 1) 0 + 1) (by omega) hlen
      omega
    · rw [if_neg hs]
      have : segmentScan (first :: rest) e ((first :: rest).length - 1) 0
          = (first :: rest).length - 1 := by omega
      rw [this]
  · intro i hnot hi hlt hmin
    have h1 : ¬ e < ((first :: rest).getD 0 default).speed := fun h => hnot (Or.inr h)
    have h0 : e ≠ 0 := fun h => hnot (Or.inl h)
    have hscan := segmentScan_eq_of_first _ _ i hi hlt hmin
    have hle := segmentScan_speed_le (first :: rest) e h1
    rw [hscan] at hle
    refine ⟨hle, ?_⟩
    rw [deviceSpeed_scan _ _ h1 h0, hscan, if_pos (by omega), sub32_of_le hle heU]
  · by_cases hlow : e = 0 ∨ e < ((first :: rest).getD 0 default).speed
    · exact Or.inl hlow
    · right
      have h0 : e ≠ 0 := fun h => hlow (Or.inl h)
      by_cases hs : segmentScan (first :: rest) e ((first :: rest).length - 1) 0
          < (first :: rest).length - 1
      · right
        exact ⟨_, by omega, h3 (by omega), fun j hj => h4 j (Nat.zero_le _) hj⟩
      · left
        refine ⟨h0, ?_⟩
        have hscan : segmentScan (first :: rest) e ((first :: rest).length - 1) 0
            = (first :: rest).length - 1 := by omega
        have h1 : ¬ e < ((first :: rest).getD 0 default).speed := fun h => hlow (Or.inr h)
        have := segmentScan_speed_le (first :: rest) e h1
        rw [hscan] at this
        exact this

/-- Witness for C7: the reference applied to the scenario table at speed 4000 and
50 % override, where `e = 4000 * 50 / 100 = 2000`. -/
theorem mapSpeed_piecewise_witness :
    ∃ r : Nat,
      mapSpeed scenarioTable ⟨50, 0⟩ 4000
        = some (r, { (⟨50, 0⟩ : system_t) with spindle_speed := 2000 }) ∧
      (2000 = 0 ∨ 2000 < (scenarioTable.getD 0 default).speed →
        r = (scenarioTable.getD 0 default).offset) ∧
      (2000 ≠ 0 → (scenarioTable.getD (scenarioTable.length - 1) default).speed ≤ 2000 →
        r = (scenarioTable.getD (scenarioTable.length - 1) default).offset) ∧
      (∀ i : Nat,
        ¬ (2000 = 0 ∨ 2000 < (scenarioTable.getD 0 default).speed) →
        i + 1 < scenarioTable.length →
        2000 < (scenarioTable.getD (i + 1) default).speed →
        (∀ j, j < i → ¬ 2000 < (scenarioTable.getD (j + 1) default).speed) →
        (scenarioTable.getD i default).speed ≤ 2000 ∧
        r = add32 (scenarioTable.getD i default).offset
              (mul32 (2000 - (scenarioTable.getD i default).speed)
                (scenarioTable.getD i default).scale >>> 16)) ∧
      ((2000 = 0 ∨ 2000 < (scenarioTable.getD 0 default).speed) ∨
        (2000 ≠ 0 ∧ (scenarioTable.getD (scenarioTable.length - 1) default).speed ≤ 2000) ∨
        ∃ i : Nat, i + 1 < scenarioTable.length ∧
          2000 < (scenarioTable.getD (i + 1) default).speed ∧
          ∀ j, j < i → ¬ 2000 < (scenarioTable.getD (j + 1) default).speed) :=
  mapSpeed_piecewise.1 scenarioTable ⟨50, 0⟩ 4000 2000 (List.cons_ne_nil _ _) (by decide)
    (by decide)

/-- The effective speed never exceeds the requested speed at an override of 100. -/
theorem effectiveSpeed_le_of_ovr_100 (sys : system_t) (s : Nat)
    (h : sys.spindle_speed_ovr = 100) : effectiveSpeed sys s ≤ s := by
  unfold effectiveSpeed mul32
  rw [h]
  have : s * 100 % U32 ≤ s * 100 := Nat.mod_le _ _
  omega

/-- On a table that starts with two entries at speed 0, the second with scale 0,
every speed below the third entry maps to the first offset when it is zero and
to the second offset otherwise. -/
theorem deviceSpeed_shelf (a b c : speedEntry) (rest : List speedEntry) (e : Nat)
    (ha : a.speed = 0) (hb : b.speed = 0) (hsc : b.scale = 0) (hoff : b.offset < U32)
    (he : e < c.speed) :
    deviceSpeed (a :: b :: c :: rest) e = if e = 0 then a.offset else b.offset := by
  by_cases h0 : e = 0
  · rw [if_pos h0, deviceSpeed_low _ _ (Or.inl h0)]
    rfl
  · have h1 : ¬ e < ((a :: b :: c :: rest).getD 0 default).speed := by
      simp only [List.getD_cons_zero, ha]
      omega
    have hscan : segmentScan (a :: b :: c :: rest) e ((a :: b :: c :: rest).length - 1) 0 = 1 := by
      apply segmentScan_eq_of_first
      · simp
      · simpa using he
      · intro j hj
        have : j = 0 := by omega
        subst this
        simp only [List.getD_cons_succ, List.getD_cons_zero, hb]
        omega
    rw [if_neg h0, deviceSpeed_scan _ _ h1 h0, hscan, if_pos (by simp)]
    simp only [List.getD_cons_succ, List.getD_cons_zero, hsc, mul32, add32, Nat.mul_zero,
      Nat.zero_mod, Nat.zero_shiftRight, Nat.add_zero]
    exact Nat.mod_eq_of_lt hoff

/-- C9 (counterexample): a commanded speed below `min` does not map to raw code
0.  `shelfSpeeds(1000, 10000)` leaves the points
`(0 %, 0), (10 %, 0), (10 %, 1000), (100 %, 10000)`, `setupSpeeds(1000)` gives
them the offsets 0, 100, 100, 1000, and `mapSpeed(500)` at 100 % override
returns 100, the raw level of `minPercent`. -/
theorem shelfSpeeds_low_speed_counterexample :
    (0 < 1000 ∧ 1000 ≤ 10000 ∧ 500 < 1000) ∧
    shelfSpeeds 1000 10000
      = some [mkEntry 0 0, mkEntry 0 10, mkEntry 1000 10, mkEntry 10000 100] ∧
    setupSpeeds 1000 [mkEntry 0 0, mkEntry 0 10, mkEntry 1000 10, mkEntry 10000 100]
      = some [⟨0, 0, 0, 0⟩, ⟨0, 10, 100, 0⟩, ⟨1000, 10, 100, 6553⟩, ⟨10000, 100, 1000, 0⟩] ∧
    mapSpeed [⟨0, 0, 0, 0⟩, ⟨0, 10, 100, 0⟩, ⟨1000, 10, 100, 6553⟩, ⟨10000, 100, 1000, 0⟩]
      ⟨100, 0⟩ 500 = some (100, ⟨100, 500⟩) ∧
    (100 : Nat) ≠ 0 :=
  ⟨by decide, shelfSpeeds_1000_10000, setupSpeeds_shelf_1000_10000, by decide, by decide⟩

/-- C9 (amended): the default shelf table maps low speeds to the shelf level, not
to zero.  For every `min`, `max` with `0 < min ≤ max`, every `max_dev_speed` and
every commanded speed `s < min` at 100 % override: (1) whenever
`shelfSpeeds(min, max)` followed by `setupSpeeds(max_dev_speed)` completes
(every conversion to `uint32_t` is defined), `mapSpeed(s)` on the table built
returns raw code 0 when the effective speed is 0 and otherwise the shelf level
`uint32_t(minPercent / 100.0 * max_dev_speed)`, computed in `double` from the
`float` value `minPercent = 100.0f * min / max`; (2) the two functions do
complete when `max < 2 ^ 24` and `max_dev_speed < 2 ^ 16`; (3) the effective
speed is `s` itself whenever `s * 100` fits in 32 bits. -/
theorem shelfSpeeds_low_speed (min max M s : Nat) (sys : system_t)
    (hmin : 0 < min) (hle : min ≤ max) (hs : s < min) (hovr : sys.spindle_speed_ovr = 100) :
    (∀ pts T : List speedEntry, shelfSpeeds min max = some pts → setupSpeeds M pts = some T →
      ∃ (minPercent : ℚ) (level : Nat),
        fdiv binary32 (fmul binary32 (some 100) (ofUInt32 binary32 min))
          (ofUInt32 binary32 max) = some minPercent ∧
        toUInt32 (fmul binary64 (fdiv binary64 (some minPercent) (some 100))
          (ofUInt32 binary64 M)) = some level ∧
        mapSpeed T sys s
          = some (if effectiveSpeed sys s = 0 then 0 else level,
                  { sys with spindle_speed := effectiveSpeed sys s })) ∧
    (max < 2 ^ 24 → M < 2 ^ 16 →
      ∃ pts T : List speedEntry, shelfSpeeds min max = some pts ∧ setupSpeeds M pts = some T) ∧
    (s * 100 < 2 ^ 32 → effectiveSpeed sys s = s) := by
  have hne : min ≠ 0 := Nat.pos_iff_ne_zero.mp hmin
  refine ⟨?_, ?_, ?_⟩
  · intro pts T hpts hT
    cases hP : fdiv binary32 (fmul binary32 (some 100) (ofUInt32 binary32 min))
        (ofUInt32 binary32 max) with
    | none =>
      unfold shelfSpeeds at hpts
      rw [hP] at hpts
      simp at hpts
    | some P =>
      rw [shelfSpeeds_points hne hP] at hpts
      simp only [Option.some.injEq] at hpts
      subst hpts
      rw [setupSpeeds_eq _ _ (by simp)] at hT
      obtain ⟨s0, t0, h0, ht0, rfl⟩ := setupLoop_cons_cons_inv hT
      obtain ⟨s1, t1, h1, ht1, rfl⟩ := setupLoop_cons_cons_inv ht0
      obtain ⟨s2, t2, h2, -, rfl⟩ := setupLoop_cons_cons_inv ht1
      obtain ⟨hs0, ho0, -⟩ := setupSegment_inv h0
      obtain ⟨hs1, ho1, hc1⟩ := setupSegment_inv h1
      obtain ⟨hs2, -, -⟩ := setupSegment_inv h2
      have hoff0 : s0.offset = 0 := offset_of_zero_percent M _ ho0
      have hsc1 : s1.scale = 0 := by
        have hz : fdiv binary32 (fsub binary32 (some (mkEntry min P).percent)
            (some (mkEntry 0 P).percent)) (some 100) = some 0 := by
          show fdiv binary32 (fsub binary32 (some P) (some P)) (some 100) = some 0
          rw [fsub_some, sub_self, round_zero, fdiv_zero_left _ (by norm_num : (100 : ℚ) ≠ 0)]
        rw [hz] at hc1
        exact scale_of_zero_delta M _ _ hc1
      have he : effectiveSpeed sys s < s2.speed := by
        rw [hs2]
        exact lt_of_le_of_lt (effectiveSpeed_le_of_ovr_100 sys s hovr) hs
      refine ⟨P, s1.offset, rfl, ho1, ?_⟩
      simp only [mapSpeed]
      rw [deviceSpeed_shelf s0 s1 s2 t2 _ hs0 hs1 hsc1 (toUInt32_lt ho1) he, hoff0]
  · intro hmax hM
    obtain ⟨P, hP, hP0, hP101, hP100⟩ := minPercent_range min max hmin hle hmax
    obtain ⟨s0, h0⟩ := setupSegment_flat M (mkEntry 0 0) (mkEntry 0 P) hM (le_refl _)
      (by show (0 : ℚ) ≤ 101; norm_num) (le_refl _) (by show 0 < 2 ^ 24; norm_num)
      (Or.inl rfl)
    obtain ⟨s1, h1⟩ := setupSegment_flat M (mkEntry 0 P) (mkEntry min P) hM hP0 hP101
      (Nat.zero_le _) (by show min < 2 ^ 24; omega) (Or.inr rfl)
    obtain ⟨s3, h3, -⟩ := setupLast_range M (mkEntry max 100) hM
      (by show (0 : ℚ) ≤ 100; norm_num) (le_refl _)
    have h2 : ∃ s2, setupSegment M (mkEntry min P) (mkEntry max 100) = some s2 := by
      rcases Nat.eq_or_lt_of_le hle with heq | hlt
      · exact setupSegment_flat M (mkEntry min P) (mkEntry max 100) hM hP0 hP101 hle hmax
          (Or.inl heq)
      · obtain ⟨s2, h2, -⟩ := setupSegment_range M (mkEntry min P) (mkEntry max 100) hM hP0
          (hP100 hlt) (le_refl _) hle hmax
        exact ⟨s2, h2⟩
    obtain ⟨s2, h2⟩ := h2
    refine ⟨_, [s0, s1, s2, s3], shelfSpeeds_points hne hP, ?_⟩
    rw [setupSpeeds_eq _ _ (by simp)]
    exact setupLoop_cons_cons h0 (setupLoop_cons_cons h1
      (setupLoop_cons_cons h2 (setupLoop_singleton h3)))
  · intro h
    unfold effectiveSpeed mul32 U32
    rw [hovr, Nat.mod_eq_of_lt h]
    omega

/-- Witness for C9: `shelfSpeeds(4000, 12000)` and `setupSpeeds(255)` complete,
`minPercent` is the `float` nearest to `100 / 3`, and `mapSpeed(2000)` at 100 %
override returns the shelf level 84. -/
theorem shelfSpeeds_low_speed_witness :
    ∃ pts T : List speedEntry,
      shelfSpeeds 4000 12000 = some pts ∧ setupSpeeds 255 pts = some T ∧
      mapSpeed T ⟨100, 0⟩ 2000 = some (84, ⟨100, 2000⟩) := by
  obtain ⟨hA, hB, -⟩ := shelfSpeeds_low_speed 4000 12000 255 2000 ⟨100, 0⟩
    (by decide) (by decide) (by decide) rfl
  obtain ⟨pts, T, h1, h2⟩ := hB (by decide) (by decide)
  obtain ⟨P, L, hP, hL, hmap⟩ := hA pts T h1 h2
  rw [shelf_level_4000_12000.1] at hP
  simp only [Option.some.injEq] at hP
  subst hP
  rw [shelf_level_4000_12000.2] at hL
  simp only [Option.some.injEq] at hL
  subst hL
  refine ⟨pts, T, h1, h2, ?_⟩
  rw [hmap]
  rfl

/-- C16 (counterexample): the raw output leaves the range.  The points
`(0 %, 33554438), (100 %, 33554450)` satisfy the conditions of the claim with
`max_dev_speed = 1000 < 2 ^ 16`.  Both speeds lie above `2 ^ 24`, where `float`
has a spacing of 4: `float(33554450) - float(33554438)` is 8, not 12, and
`setupSpeeds(1000)` writes the scale 8192000.  At 100 % override
`mapSpeed(33554449)` returns `0 + ((11 * 8192000) >> 16) = 1375`, which exceeds
1000. -/
theorem mapSpeed_in_range_counterexample :
    ((1000 : Nat) < 2 ^ 16 ∧ 2 ≤ [mkEntry 33554438 0, mkEntry 33554450 100].length ∧
      (∀ p ∈ [mkEntry 33554438 0, mkEntry 33554450 100], 0 ≤ p.percent ∧ p.percent ≤ 100) ∧
      ([mkEntry 33554438 0, mkEntry 33554450 100].map speedEntry.percent).Sorted (· ≤ ·) ∧
      ([mkEntry 33554438 0, mkEntry 33554450 100].map speedEntry.speed).Sorted (· ≤ ·)) ∧
    setupSpeeds 1000 [mkEntry 33554438 0, mkEntry 33554450 100]
      = some [⟨33554438, 0, 0, 8192000⟩, ⟨33554450, 100, 1000, 0⟩] ∧
    mapSpeed [⟨33554438, 0, 0, 8192000⟩, ⟨33554450, 100, 1000, 0⟩] ⟨100, 0⟩ 33554449
      = some (1375, ⟨100, 33554449⟩) ∧
    ¬ ((1375 : Nat) ≤ 1000) := by
  refine ⟨⟨by decide, by decide, ?_, ?_, by decide⟩, setupSpeeds_large_speeds, by decide,
    by decide⟩
  · intro p hp
    simp only [List.mem_cons, List.mem_singleton, List.not_mem_nil, or_false] at hp
    rcases hp with rfl | rfl <;> simp only [mkEntry] <;> norm_num
  · simp [mkEntry]

/-- C16 (amended): raw output stays in range when the configured speeds convert
to `float` exactly.  For every `max_dev_speed < 2 ^ 16` and every list of at
least two points whose percents lie in `[0, 100]`, whose speeds are below
`2 ^ 24`, and whose percents and speeds are non-decreasing,
`setupSpeeds(max_dev_speed)` completes (every conversion to `uint32_t` is
defined) and on the table it builds: for every 32-bit effective speed the value
`mapSpeed` computes is at most `max_dev_speed`, and whenever the interpolation
is evaluated (segment `i` found by the scan is not the last) entry `i` starts
at or below the speed and the product
`(speed - speeds[i].speed) * speeds[i].scale` is below `2 ^ 32`; every call of
`mapSpeed` returns such a value. -/
theorem mapSpeed_in_range (M : Nat) (pts : List speedEntry)
    (hM : M < 2 ^ 16) (hlen : 2 ≤ pts.length)
    (hpct : ∀ p ∈ pts, 0 ≤ p.percent ∧ p.percent ≤ 100)
    (hpercents : (pts.map speedEntry.percent).Sorted (· ≤ ·))
    (hspeeds : (pts.map speedEntry.speed).Sorted (· ≤ ·))
    (h24 : ∀ p ∈ pts, p.speed < 2 ^ 24) :
    ∃ T : List speedEntry, setupSpeeds M pts = some T ∧
      (∀ e : Nat, e < 2 ^ 32 →
        deviceSpeed T e ≤ M ∧
        (¬ e < (T.getD 0 default).speed → e ≠ 0 →
          segmentScan T e (T.length - 1) 0 < T.length - 1 →
          (T.getD (segmentScan T e (T.length - 1) 0) default).speed ≤ e ∧
          (e - (T.getD (segmentScan T e (T.length - 1) 0) default).speed)
            * (T.getD (segmentScan T e (T.length - 1) 0) default).scale < 2 ^ 32)) ∧
      (∀ (sys : system_t) (s : Nat), ∃ r : Nat,
        mapSpeed T sys s = some (r, { sys with spindle_speed := effectiveSpeed sys s }) ∧
        r ≤ M) := by
  have hne : pts ≠ [] := by
    intro h
    rw [h] at hlen
    simp at hlen
  obtain ⟨T, hT, hTlen, -, hoff, hseg⟩ :=
    setupLoop_range M hM pts hne hpct h24 hpercents hspeeds
  have hMU : M < U32 := lt_of_lt_of_le hM (Nat.pow_le_pow_right (by decide) (by decide))
  have hpos : 0 < T.length := by omega
  refine ⟨T, by rw [setupSpeeds_eq M pts hlen]; exact hT, ?_, ?_⟩
  · intro e he
    exact deviceSpeed_le T M hMU hpos hoff hseg e he
  · intro sys s
    obtain ⟨a, t, rfl⟩ := List.exists_cons_of_ne_nil (List.ne_nil_of_length_pos hpos)
    exact ⟨deviceSpeed (a :: t) (effectiveSpeed sys s), rfl,
      (deviceSpeed_le (a :: t) M hMU hpos hoff hseg _ (effectiveSpeed_lt sys s)).1⟩

/-- Witness for C16: the scenario points with `max_dev_speed = 1000`; every call
of `mapSpeed` on the table built returns at most 1000. -/
theorem mapSpeed_in_range_witness :
    ∃ T : List speedEntry,
      setupSpeeds 1000 [mkEntry 0 0, mkEntry 0 20, mkEntry 1000 20, mkEntry 10000 100]
        = some T ∧
      (∀ e : Nat, e < 2 ^ 32 →
        deviceSpeed T e ≤ 1000 ∧
        (¬ e < (T.getD 0 default).speed → e ≠ 0 →
          segmentScan T e (T.length - 1) 0 < T.length - 1 →
          (T.getD (segmentScan T e (T.length - 1) 0) default).speed ≤ e ∧
          (e - (T.getD (segmentScan T e (T.length - 1) 0) default).speed)
            * (T.getD (segmentScan T e (T.length - 1) 0) default).scale < 2 ^ 32)) ∧
      (∀ (sys : system_t) (s : Nat), ∃ r : Nat,
        mapSpeed T sys s = some (r, { sys with spindle_speed := effectiveSpeed sys s }) ∧
        r ≤ 1000) :=
  mapSpeed_in_range 1000 [mkEntry 0 0, mkEntry 0 20, mkEntry 1000 20, mkEntry 10000 100]
    (by decide) (by decide)
    (by
      intro p hp
      simp only [List.mem_cons, List.mem_singleton, List.not_mem_nil, or_false] at hp
      rcases hp with rfl | rfl | rfl | rfl <;> simp only [mkEntry] <;> norm_num)
    (by norm_num [mkEntry]) (by decide)
    (by
      intro p hp
      simp only [List.mem_cons, List.mem_singleton, List.not_mem_nil, or_false] at hp
      rcases hp with rfl | rfl | rfl | rfl <;> simp only [mkEntry] <;> norm_num)

/-- C15 (counterexample): override scaling is not linear for every speed.  For
`s = 1116691499` the products `s * 50` and `(s / 2) * 100` wrap in 32 bits to 102
and 52, so the effective speeds are 1 and 0; on the table `(0 %, 0), (100 %, 1000)`
built by `setupSpeeds(1000)` the raw codes are 1 and 0. -/
theorem mapSpeed_override_counterexample :
    setupSpeeds 1000 [mkEntry 0 0, mkEntry 1000 100]
      = some [⟨0, 0, 0, 65536⟩, ⟨1000, 100, 1000, 0⟩] ∧
    mapSpeed [⟨0, 0, 0, 65536⟩, ⟨1000, 100, 1000, 0⟩] ⟨50, 0⟩ 1116691499
      = some (1, ⟨50, 1⟩) ∧
    mapSpeed [⟨0, 0, 0, 65536⟩, ⟨1000, 100, 1000, 0⟩] ⟨100, 0⟩ (1116691499 / 2)
      = some (0, ⟨100, 0⟩) ∧
    (1 : Nat) ≠ 0 :=
  ⟨setupSpeeds_two_points, by decide, by decide, by decide⟩

/-- C15 (amended): override scaling in `mapSpeed` is linear as long as the product
does not wrap.  `mapSpeed` always records `speed * sys.spindle_speed_ovr / 100`
taken in 32-bit unsigned arithmetic, before any return path, and leaves the
override unchanged; a non-empty table always gives a result.  For every
non-empty table and every requested speed `s` with `s * 50 < 2 ^ 32`,
`mapSpeed(s)` at override 50 and `mapSpeed(s / 2)` at override 100 return the
same raw code and record the same speed `s / 2 = s * 50 / 100`. -/
theorem mapSpeed_override_linear :
    (∀ (speeds : List speedEntry) (sys : system_t) (s r : Nat) (sys1 : system_t),
      mapSpeed speeds sys s = some (r, sys1) →
      sys1 = { sys with spindle_speed := (s * sys.spindle_speed_ovr) % 2 ^ 32 / 100 }) ∧
    (∀ (speeds : List speedEntry) (sys : system_t) (s : Nat), speeds ≠ [] →
      ∃ r, mapSpeed speeds sys s = some (r, { sys with spindle_speed := effectiveSpeed sys s })) ∧
    (∀ (speeds : List speedEntry) (x y s : Nat), speeds ≠ [] → s * 50 < 2 ^ 32 →
      ∃ r, mapSpeed speeds ⟨50, x⟩ s = some (r, ⟨50, s * 50 / 100⟩) ∧
        mapSpeed speeds ⟨100, y⟩ (s / 2) = some (r, ⟨100, s * 50 / 100⟩)) := by
  refine ⟨?_, ?_, ?_⟩
  · intro speeds sys s r sys1 h
    cases speeds with
    | nil => simp [mapSpeed] at h
    | cons a t =>
      simp only [mapSpeed, Option.some.injEq, Prod.mk.injEq] at h
      rw [← h.2]
      rfl
  · intro speeds sys s hne
    obtain ⟨a, t, rfl⟩ := List.exists_cons_of_ne_nil hne
    exact ⟨_, rfl⟩
  · intro speeds x y s hne hs
    obtain ⟨a, t, rfl⟩ := List.exists_cons_of_ne_nil hne
    have e50 : effectiveSpeed ⟨50, x⟩ s = s * 50 / 100 := by
      simp only [effectiveSpeed, mul32, U32]
      rw [Nat.mod_eq_of_lt hs]
    have e100 : effectiveSpeed ⟨100, y⟩ (s / 2) = s * 50 / 100 := by
      simp only [effectiveSpeed, mul32, U32]
      rw [Nat.mod_eq_of_lt (by omega)]
      omega
    refine ⟨deviceSpeed (a :: t) (s * 50 / 100), ?_, ?_⟩
    · simp only [mapSpeed, e50]
    · simp only [mapSpeed, e100]

/-- Witness for C15: the scenario table, speed 1001 at override 50 against speed
500 at override 100. -/
theorem mapSpeed_override_linear_witness :
    ∃ r, mapSpeed scenarioTable ⟨50, 0⟩ 1001 = some (r, ⟨50, 1001 * 50 / 100⟩) ∧
      mapSpeed scenarioTable ⟨100, 0⟩ (1001 / 2) = some (r, ⟨100, 1001 * 50 / 100⟩) :=
  mapSpeed_override_linear.2.2 scenarioTable 0 0 1001 (List.cons_ne_nil _ _) (by decide)

end Spindles

/-! ## `switchSpindle`: the spindle selector -/

namespace Spindles

/-- The candidate search over a list extended by one spindle. -/
theorem findCandidate_concat (tool : Nat → Int) (new_tool : Nat) (l : List Nat) (a : Nat) :
    findCandidate tool new_tool (l ++ [a])
      = candidateStep tool new_tool (findCandidate tool new_tool l) a := by
  simp [findCandidate, List.foldl_append]

/-- What the candidate search returns: nothing when no spindle has a tool number
at or below `new_tool`; otherwise the spindle at some index `i` whose tool
number is the greatest one at or below `new_tool`, no earlier spindle having
the same tool number. -/
theorem findCandidate_spec (tool : Nat → Int) (new_tool : Nat) (l : List Nat) :
    (findCandidate tool new_tool l = none ∧ ∀ s ∈ l, ¬ tool s ≤ (new_tool : Int)) ∨
    (∃ c i : Nat, findCandidate tool new_tool l = some c ∧ l[i]? = some c ∧
      tool c ≤ (new_tool : Int) ∧
      (∀ s ∈ l, tool s ≤ (new_tool : Int) → tool s ≤ tool c) ∧
      (∀ j s : Nat, j < i → l[j]? = some s → tool s ≠ tool c)) := by
  induction l using List.reverseRecOn with
  | nil => left; simp [findCandidate]
  | append_singleton l a ih =>
    rw [findCandidate_concat]
    rcases ih with ⟨hnone, hall⟩ | ⟨c, i, hsome, hget, hle, hmax, hfirst⟩
    · rw [hnone]
      by_cases ha : tool a ≤ (new_tool : Int)
      · right
        refine ⟨a, l.length, by simp [candidateStep, ha], by simp, ha, ?_, ?_⟩
        · intro s hs hsle
          rcases List.mem_append.mp hs with h | h
          · exact absurd hsle (hall s h)
          · simp at h; rw [h]
        · intro j s hj hjs
          rw [List.getElem?_append_left hj] at hjs
          have := hall s (List.getElem?_mem hjs)
          omega
      · left
        refine ⟨by simp [candidateStep, ha], ?_⟩
        intro s hs
        rcases List.mem_append.mp hs with h | h
        · exact hall s h
        · simp at h; rw [h]; exact ha
    · rw [hsome]
      right
      have hi : i < l.length := by
        rcases List.getElem?_eq_some.mp hget with ⟨h, -⟩
        exact h
      by_cases ha : tool a ≤ (new_tool : Int) ∧ tool c < tool a
      · refine ⟨a, l.length, by simp [candidateStep, ha], by simp, ha.1, ?_, ?_⟩
        · intro s hs hsle
          rcases List.mem_append.mp hs with h | h
          · have := hmax s h hsle; omega
          · simp at h; rw [h]
        · intro j s hj hjs
          rw [List.getElem?_append_left hj] at hjs
          intro heq
          have := hmax s (List.getElem?_mem hjs) (by omega)
          omega
      · refine ⟨c, i, by simp only [candidateStep, if_neg ha], ?_, hle, ?_, ?_⟩
        · rw [List.getElem?_append_left hi]; exact hget
        · intro s hs hsle
          rcases List.mem_append.mp hs with h | h
          · exact hmax s h hsle
          · simp at h; rw [h]
            by_contra hc
            exact ha ⟨by rw [← h]; exact hsle, by omega⟩
        · intro j s hj hjs
          rw [List.getElem?_append_left (by omega)] at hjs
          exact hfirst j s hj hjs

/-- When a candidate is found, `switchSpindle` leaves the reference on it. -/
theorem switchSpindle_of_candidate (tool : Nat → Int) (new_tool : Nat) (spindles : List Nat)
    (spindle : Option Nat) (c : Nat) (h : findCandidate tool new_tool spindles = some c) :
    (switchSpindle tool new_tool spindles spindle).1 = some c := by
  unfold switchSpindle
  rw [h]
  by_cases hc : some c = spindle
  · simp [hc.symm]
  · cases spindle with
    | none => simp
    | some old => simp [hc]

/-- C10: nearest-below selection.  For every spindle list, every `new_tool` and
every prior value of the reference `spindle`, if some spindle in the list has
`_tool ≤ new_tool` then after `switchSpindle` the reference holds a list member
(at some index `i`) whose `_tool` is at most `new_tool` and is the greatest
such value in the list, and no spindle earlier in the list has the same
`_tool`. -/
theorem switchSpindle_nearest_below (tool : Nat → Int) (new_tool : Nat) (spindles : List Nat)
    (spindle : Option Nat) (h : ∃ s ∈ spindles, tool s ≤ (new_tool : Int)) :
    ∃ (c i : Nat), (switchSpindle tool new_tool spindles spindle).1 = some c ∧
      spindles[i]? = some c ∧
      tool c ≤ (new_tool : Int) ∧
      (∀ s ∈ spindles, tool s ≤ (new_tool : Int) → tool s ≤ tool c) ∧
      (∀ j s : Nat, j < i → spindles[j]? = some s → tool s ≠ tool c) := by
  rcases findCandidate_spec tool new_tool spindles with
    ⟨-, hall⟩ | ⟨c, i, hsome, hget, hle, hmax, hfirst⟩
  · obtain ⟨s, hs, hsle⟩ := h
    exact absurd hsle (hall s hs)
  · exact ⟨c, i, switchSpindle_of_candidate tool new_tool spindles spindle c hsome, hget, hle,
      hmax, hfirst⟩

/-- Witness for C10: four spindles at addresses 0-3 with tool numbers 5, 1, 3, 3,
spindle 1 active, and `new_tool = 4`. -/
theorem switchSpindle_nearest_below_witness :
    ∃ (c i : Nat),
      (switchSpindle (fun s => ([5, 1, 3, 3] : List Int).getD s 0) 4 [0, 1, 2, 3] (some 1)).1
        = some c ∧
      ([0, 1, 2, 3] : List Nat)[i]? = some c ∧
      (fun s => ([5, 1, 3, 3] : List Int).getD s 0) c ≤ ((4 : Nat) : Int) ∧
      (∀ s ∈ ([0, 1, 2, 3] : List Nat),
        (fun s => ([5, 1, 3, 3] : List Int).getD s 0) s ≤ ((4 : Nat) : Int) →
        (fun s => ([5, 1, 3, 3] : List Int).getD s 0) s
          ≤ (fun s => ([5, 1, 3, 3] : List Int).getD s 0) c) ∧
      (∀ j s : Nat, j < i → ([0, 1, 2, 3] : List Nat)[j]? = some s →
        (fun s => ([5, 1, 3, 3] : List Int).getD s 0) s
          ≠ (fun s => ([5, 1, 3, 3] : List Int).getD s 0) c) :=
  switchSpindle_nearest_below (fun s => ([5, 1, 3, 3] : List Int).getD s 0) 4 [0, 1, 2, 3]
    (some 1) ⟨1, by decide, by decide⟩

/-- Without a spindle at or below `new_tool` the candidate search finds nothing. -/
theorem findCandidate_eq_none (tool : Nat → Int) (new_tool : Nat) (spindles : List Nat)
    (h : ∀ s ∈ spindles, ¬ tool s ≤ (new_tool : Int)) :
    findCandidate tool new_tool spindles = none := by
  rcases findCandidate_spec tool new_tool spindles with
    ⟨hnone, -⟩ | ⟨c, i, -, hget, hle, -, -⟩
  · exact hnone
  · exact absurd hle (h c (List.getElem?_mem hget))

/-- C11 (counterexample): with an active spindle the fallback does not select the
first registered spindle.  Two spindles at addresses 0 and 1 with tool numbers 5
and 7, spindle 1 active, `new_tool = 3`: no spindle has `_tool ≤ 3`, and after
the call spindle 1 is still the active one, not `spindles[0]`. -/
theorem switchSpindle_fallback_counterexample :
    (∀ s ∈ ([0, 1] : List Nat), ¬ ([5, 7] : List Int).getD s 0 ≤ ((3 : Nat) : Int)) ∧
    (1 : Nat) ∈ ([0, 1] : List Nat) ∧
    (switchSpindle (fun s => ([5, 7] : List Int).getD s 0) 3 [0, 1] (some 1)).1 = some 1 ∧
    (some 1 : Option Nat) ≠ ([0, 1] : List Nat).head? := by
  decide

/-- C11 (amended): fallback of `switchSpindle`.  When no spindle of the list has
`_tool ≤ new_tool`: if no spindle was active and the list is non-empty, the
first registered spindle becomes active (one assignment, no `stop()`); if a
spindle was active, it stays active and nothing is stopped or assigned; if no
spindle was active and the list is empty, the call reports that no spindles
are defined and leaves the reference unset. -/
theorem switchSpindle_fallback (tool : Nat → Int) (new_tool : Nat) (spindles : List Nat)
    (h : ∀ s ∈ spindles, ¬ tool s ≤ (new_tool : Int)) :
    (∀ first rest, spindles = first :: rest →
      switchSpindle tool new_tool spindles none
        = (some first, [.assign first, .logInfo first])) ∧
    (∀ cur, switchSpindle tool new_tool spindles (some cur) = (some cur, [.logInfo cur])) ∧
    (spindles = [] → switchSpindle tool new_tool spindles none = (none, [.logError])) := by
  have hc := findCandidate_eq_none tool new_tool spindles h
  refine ⟨?_, ?_, ?_⟩
  · intro first rest hs
    subst hs
    simp only [switchSpindle, hc]
  · intro cur
    simp only [switchSpindle, hc]
  · intro hs
    subst hs
    simp only [switchSpindle, hc]

/-- Witness for C11: tool numbers 5 and 7 at addresses 0 and 1, `new_tool = 3`. -/
theorem switchSpindle_fallback_witness :
    (∀ first rest, ([0, 1] : List Nat) = first :: rest →
      switchSpindle (fun s => ([5, 7] : List Int).getD s 0) 3 [0, 1] none
        = (some first, [.assign first, .logInfo first])) ∧
    (∀ cur, switchSpindle (fun s => ([5, 7] : List Int).getD s 0) 3 [0, 1] (some cur)
        = (some cur, [.logInfo cur])) ∧
    (([0, 1] : List Nat) = [] →
      switchSpindle (fun s => ([5, 7] : List Int).getD s 0) 3 [0, 1] none
        = (none, [.logError])) :=
  switchSpindle_fallback (fun s => ([5, 7] : List Int).getD s 0) 3 [0, 1] (by decide)

/-- C12: a single active tool.  Whenever `switchSpindle` changes the reference
from a non-null previous spindle to a different one, the events are exactly
`stop()` on the previous spindle, then the assignment of the new one, then the
log line: one `stop()`, on the previous spindle, before the reassignment.
Whenever the reference is the same after the call as before, no `stop()` and
no assignment occurs; in particular when the resolved spindle (the candidate
found, or in the specification's reading the first registered spindle when
there is none) is the already-active one, the reference is unchanged and the
only event is the log line. -/
theorem switchSpindle_single_active (tool : Nat → Int) (new_tool : Nat) (spindles : List Nat) :
    (∀ old : Nat, (switchSpindle tool new_tool spindles (some old)).1 ≠ some old →
      ∃ c, c ≠ old ∧ findCandidate tool new_tool spindles = some c ∧
        switchSpindle tool new_tool spindles (some old)
          = (some c, [.stop old, .assign c, .logInfo c])) ∧
    (∀ spindle : Option Nat, (switchSpindle tool new_tool spindles spindle).1 = spindle →
      ∀ e ∈ (switchSpindle tool new_tool spindles spindle).2,
        (∀ s, e ≠ .stop s) ∧ (∀ s, e ≠ .assign s)) ∧
    (∀ c : Nat, findCandidate tool new_tool spindles = some c →
      switchSpindle tool new_tool spindles (some c) = (some c, [.logInfo c])) ∧
    (∀ c : Nat, resolvedSpindle tool new_tool spindles = some c →
      switchSpindle tool new_tool spindles (some c) = (some c, [.logInfo c])) := by
  refine ⟨?_, ?_, ?_, ?_⟩
  · intro old hne
    cases hc : findCandidate tool new_tool spindles with
    | none =>
      exfalso
      apply hne
      simp only [switchSpindle, hc]
    | some c =>
      by_cases hco : c = old
      · exfalso
        apply hne
        subst hco
        simp [switchSpindle, hc]
      · refine ⟨c, hco, rfl, ?_⟩
        simp [switchSpindle, hc, hco]
  · intro spindle hsame e he
    cases hc : findCandidate tool new_tool spindles with
    | none =>
      cases spindle with
      | none =>
        cases spindles with
        | nil =>
          simp only [switchSpindle, hc, List.mem_singleton] at he
          subst he
          exact ⟨fun s => by simp, fun s => by simp⟩
        | cons first rest =>
          simp [switchSpindle, hc] at hsame
      | some cur =>
        simp only [switchSpindle, hc, List.mem_singleton] at he
        subst he
        exact ⟨fun s => by simp, fun s => by simp⟩
    | some c =>
      by_cases hcs : some c = spindle
      · subst hcs
        simp [switchSpindle, hc] at he
        subst he
        exact ⟨fun s => by simp, fun s => by simp⟩
      · exfalso
        cases spindle with
        | none => simp [switchSpindle, hc] at hsame
        | some old =>
          simp [switchSpindle, hc, hcs] at hsame
  · intro c hc
    simp [switchSpindle, hc]
  · intro c hr
    cases hc : findCandidate tool new_tool spindles with
    | none => simp only [switchSpindle, hc]
    | some c' =>
      simp only [resolvedSpindle, hc, Option.some.injEq] at hr
      subst hr
      simp [switchSpindle, hc]

/-- Witness for C12: four spindles at addresses 0-3 with tool numbers 5, 1, 3, 3,
spindle 1 active, `new_tool = 4`: spindle 1 is stopped, then spindle 2 is
assigned. -/
theorem switchSpindle_single_active_witness :
    (switchSpindle (fun s => ([5, 1, 3, 3] : List Int).getD s 0) 4 [0, 1, 2, 3] (some 1)).1
      ≠ some 1 ∧
    ∃ c, c ≠ 1 ∧
      findCandidate (fun s => ([5, 1, 3, 3] : List Int).getD s 0) 4 [0, 1, 2, 3] = some c ∧
      switchSpindle (fun s => ([5, 1, 3, 3] : List Int).getD s 0) 4 [0, 1, 2, 3] (some 1)
        = (some c, [.stop 1, .assign c, .logInfo c]) :=
  ⟨by decide,
    (switchSpindle_single_active (fun s => ([5, 1, 3, 3] : List Int).getD s 0) 4
      [0, 1, 2, 3]).1 1 (by decide)⟩

end Spindles

/-! ## PWM channel allocation and precision -/

namespace System

/-- The static counter after `k` calls: it advances from 2 and stops at 8. -/
theorem chanCounterAfter_eq (k : Nat) : chanCounterAfter k = min (k + 2) 8 := by
  induction k with
  | zero => rfl
  | succ k ih =>
    simp only [chanCounterAfter, ih, sys_get_next_PWM_chan_num]
    by_cases h : k + 2 < 8
    · have h1 : min (k + 2) 8 = k + 2 := Nat.min_eq_left (by omega)
      have h2 : min (k + 1 + 2) 8 = k + 3 := Nat.min_eq_left (by omega)
      rw [h1, h2, if_pos h]
      show (k + 2 + 1) % 256 = k + 3
      omega
    · have h1 : min (k + 2) 8 = 8 := Nat.min_eq_right (by omega)
      have h2 : min (k + 1 + 2) 8 = 8 := Nat.min_eq_right (by omega)
      rw [h1, h2]
      rfl

/-- C13: allocation sequence of `sys_get_next_PWM_chan_num`.  Starting from the
initial counter 2, the `k`-th call (made on the counter left by the `k - 1`
calls before it) returns channel `k + 1` for `k = 1..6` without reporting an
error, so channels 0 and 1 are never returned and no channel is returned
twice; the 7th and every later call returns `-1`, reports the error and leaves
the counter unchanged. -/
theorem sys_get_next_PWM_chan_num_sequence :
    (∀ k : Nat, 1 ≤ k → k ≤ 6 →
      (sys_get_next_PWM_chan_num (chanCounterAfter (k - 1))).value = ((k + 1 : Nat) : Int) ∧
      (sys_get_next_PWM_chan_num (chanCounterAfter (k - 1))).error = false) ∧
    (∀ k : Nat, 7 ≤ k →
      sys_get_next_PWM_chan_num (chanCounterAfter (k - 1))
        = { value := -1, next := chanCounterAfter (k - 1), error := true }) ∧
    (∀ j k : Nat, 1 ≤ j → j < k → k ≤ 6 →
      (sys_get_next_PWM_chan_num (chanCounterAfter (j - 1))).value
        ≠ (sys_get_next_PWM_chan_num (chanCounterAfter (k - 1))).value) ∧
    (∀ k : Nat, 1 ≤ k →
      (sys_get_next_PWM_chan_num (chanCounterAfter (k - 1))).value ≠ 0 ∧
      (sys_get_next_PWM_chan_num (chanCounterAfter (k - 1))).value ≠ 1) := by
  have low : ∀ k : Nat, 1 ≤ k → k ≤ 6 →
      sys_get_next_PWM_chan_num (chanCounterAfter (k - 1))
        = { value := ((k + 1 : Nat) : Int), next := k + 2, error := false } := by
    intro k h1 h6
    have hc : chanCounterAfter (k - 1) = k + 1 := by
      rw [chanCounterAfter_eq, Nat.min_eq_left (by omega)]
      omega
    rw [hc]
    simp only [sys_get_next_PWM_chan_num, if_pos (by omega : k + 1 < 8)]
    congr 1
    omega
  have high : ∀ k : Nat, 7 ≤ k →
      sys_get_next_PWM_chan_num (chanCounterAfter (k - 1))
        = { value := -1, next := chanCounterAfter (k - 1), error := true } := by
    intro k h7
    have hc : chanCounterAfter (k - 1) = 8 := by
      rw [chanCounterAfter_eq, Nat.min_eq_right (by omega)]
    rw [hc]
    rfl
  refine ⟨?_, high, ?_, ?_⟩
  · intro k h1 h6
    rw [low k h1 h6]
    exact ⟨rfl, rfl⟩
  · intro j k h1 hjk h6
    rw [low j h1 (by omega), low k (by omega) h6]
    simp only [ne_eq, Nat.cast_inj]
    omega
  · intro k h1
    by_cases h6 : k ≤ 6
    · rw [low k h1 h6]
      simp only [ne_eq]
      constructor <;> omega
    · rw [high k (by omega)]
      simp

/-- Witness for C13: the third call returns channel 4. -/
theorem sys_get_next_PWM_chan_num_sequence_witness :
    (sys_get_next_PWM_chan_num (chanCounterAfter (3 - 1))).value = ((3 + 1 : Nat) : Int) ∧
    (sys_get_next_PWM_chan_num (chanCounterAfter (3 - 1))).error = false :=
  sys_get_next_PWM_chan_num_sequence.1 3 (by decide) (by decide)

/-- The shift `1u << precision` for the precisions the loop reaches. -/
theorem shift_eq_pow (precision : Nat) (h : precision ≤ 17) :
    (1 <<< precision) % Spindles.U32 = 2 ^ precision := by
  rw [Nat.one_shiftLeft]
  apply Nat.mod_eq_of_lt
  have : 2 ^ precision ≤ 2 ^ 17 := Nat.pow_le_pow_right (by decide) h
  have h17 : 2 ^ 17 < Spindles.U32 := by decide
  omega

/-- The loop of `sys_calc_pwm_precision` ends with enough fuel: it stops at some
`q ≤ 17`, every precision passed on the way has `2 ^ j` below the period, and
if it stops at or before 16 the period is at most `2 ^ q`. -/
theorem precisionLoop_spec (period fuel precision : Nat) (hf : 18 ≤ fuel + precision)
    (hp : precision ≤ 17) :
    ∃ q, precisionLoop period fuel precision = some q ∧ precision ≤ q ∧ q ≤ 17 ∧
      (∀ j, precision ≤ j → j < q → 2 ^ j < period) ∧ (q ≤ 16 → period ≤ 2 ^ q) := by
  induction fuel generalizing precision with
  | zero => omega
  | succ fuel ih =>
    unfold precisionLoop
    rw [shift_eq_pow precision hp]
    by_cases hc : 2 ^ precision < period ∧ precision ≤ 16
    · rw [if_pos hc]
      have hmod : (precision + 1) % 256 = precision + 1 := Nat.mod_eq_of_lt (by omega)
      rw [hmod]
      obtain ⟨q, hq, h1, h2, h3, h4⟩ := ih (precision + 1) (by omega) (by omega)
      refine ⟨q, hq, by omega, h2, ?_, h4⟩
      intro j hj1 hj2
      rcases Nat.eq_or_lt_of_le hj1 with h | h
      · rw [← h]; exact hc.1
      · exact h3 j h hj2
    · rw [if_neg hc]
      refine ⟨precision, rfl, le_refl _, hp, ?_, ?_⟩
      · intro j hj1 hj2; omega
      · intro h16
        by_contra hlt
        exact hc ⟨by omega, h16⟩

/-- C14 (counterexample): the returned value is not always at most 16.  For
`freq = 80000000` the period is 1, the loop does not run and `precision - 1`
wraps to 255 in `uint8_t`; no precision `p` has `2 ^ p < 1`. -/
theorem sys_calc_pwm_precision_counterexample :
    (1 : Nat) ≤ 80000000 ∧ sys_calc_pwm_precision 80000000 = some 255 ∧ ¬ ((255 : Nat) ≤ 16) ∧
    sys_calc_pwm_precision 40000001 = some 255 := by
  decide

/-- C14 (amended): `sys_calc_pwm_precision` returns the highest usable precision
when one exists.  For every frequency `1 ≤ freq ≤ 40000000` (so that the period
`80000000 / freq` is at least 2) the function returns a value `p` with
`p ≤ 16`, `2 ^ p < 80000000 / freq`, and either `p = 16` or
`2 ^ (p + 1) ≥ 80000000 / freq`. -/
theorem sys_calc_pwm_precision_highest (freq : Nat) (h1 : 1 ≤ freq) (h2 : freq ≤ 40000000) :
    ∃ p, sys_calc_pwm_precision freq = some p ∧ p ≤ 16 ∧ 2 ^ p < 80000000 / freq ∧
      (p = 16 ∨ 80000000 / freq ≤ 2 ^ (p + 1)) := by
  have hper2 : 2 ≤ 80000000 / freq := by
    rw [Nat.le_div_iff_mul_le (by omega)]
    omega
  have hperU : 80000000 / freq < Spindles.U32 := by
    have : 80000000 / freq ≤ 80000000 := Nat.div_le_self _ _
    have hU : 80000000 < Spindles.U32 := by decide
    omega
  obtain ⟨q, hq, -, hq17, hbelow, habove⟩ :=
    precisionLoop_spec (80000000 / freq) 18 0 (by omega) (by omega)
  have hq1 : 1 ≤ q := by
    by_contra h
    have h0 : q = 0 := by omega
    have := habove (by omega)
    rw [h0] at this
    omega
  have hmod : (q + 255) % 256 = q - 1 := by omega
  refine ⟨q - 1, ?_, by omega, hbelow (q - 1) (Nat.zero_le _) (by omega), ?_⟩
  · simp only [sys_calc_pwm_precision, Spindles.udiv, if_neg (by omega : ¬ freq = 0),
      Nat.mod_eq_of_lt hperU, hq, Option.map_some', hmod]
  · by_cases h16 : q ≤ 16
    · right
      have := habove h16
      rw [Nat.sub_add_cancel hq1]
      exact this
    · left; omega

/-- Witness for C14: at 5 kHz the period is 16000 and the precision is 13 bits. -/
theorem sys_calc_pwm_precision_highest_witness :
    ∃ p, sys_calc_pwm_precision 5000 = some p ∧ p ≤ 16 ∧ 2 ^ p < 80000000 / 5000 ∧
      (p = 16 ∨ 80000000 / 5000 ≤ 2 ^ (p + 1)) :=
  sys_calc_pwm_precision_highest 5000 (by decide) (by decide)

end System
